import Mathlib

/- Verification of the leveldb core against its specification.

This development gives a shallow embedding, in Lean 4, of the parts of the
`leveldb` Go repository that the specification's claims are about:

* the write-throttle decision (`DB.throttle`, db.go),
* the missing-table check of recovery (`recoverDB`, db.go),
* the retry/backoff loop of compactions (`DB.compactAndLog`, db.go),
* the write-group commit step (`DB.writeBatchGroup`, db.go) and the
  coordinator's sticky-log-error behaviour (`DB.closeLog` / `DB.openLog`),
* log replay with torn-tail truncation (`DB.loadLog`, db.go),
* the tiered point lookup (`DB.get`, db.go),
* the sorted-table writer's pending index entry (`Writer.Add` /
  `Writer.Finish`, internal/table/writer.go),
* the range/start clipping iterators (internal/iterator/range.go,
  internal/iterator/start.go),
* the per-level file iterator's seek (internal/version/file_iterator.go).

Go byte-string keys compared through a comparator are modelled by values of a
type with a decidable linear order (`Nat` in witnesses); machine integers
(`int`, `uint64`, `time.Duration`) are modelled by `Nat`, with Go's integer
division written `/` on `Nat` where the source divides.  Code whose file is
not part of the given sources (memtable, batch, version state, log framing,
comparator) is modelled from the specification; each such definition says so
in its doc comment.
-/

namespace Throttle

/-- The view of the coordinator state read by `DB.throttle` (db.go:492-514):
whether `db.log` is non-nil, whether `db.compactionErr` is non-nil,
`db.options.WriteBufferSize`, `db.mem.ApproximateMemoryUsage()`, and
`len(db.state.Current().Levels[0])`. -/
structure CoordView where
  logOpen : Bool
  compactionErr : Bool
  writeBufferSize : Nat
  bufUsage : Nat
  level0NumFiles : Nat
deriving DecidableEq, Repr

/-- `configs.L0SlowdownFiles`.  Modelled from the spec: `internal/configs` is
not among the given sources; §6 fixes the L0 slowdown trigger at 8 files. -/
def L0SlowdownFiles : Nat := 8

/-- `configs.L0StopWritesFiles`.  Modelled from the spec: `internal/configs`
is not among the given sources; §6 fixes the L0 stop trigger at 12 files. -/
def L0StopWritesFiles : Nat := 12

/-- The first component of `DB.throttle`'s result: `nil` or a 1 ms timer
channel (`time.After(time.Millisecond)`). -/
inductive Slowdown where
  | none
  | delay1ms
deriving DecidableEq, Repr

/-- Shallow embedding of `DB.throttle` (db.go:492-514).  The two `switch`
statements become nested conditionals; `bufSize+bufSize/4` uses Go's integer
division.  The call to `db.tryOpenNextLog()` between the two switches only
spawns background work and does not affect the returned pair. -/
def throttle : CoordView → Slowdown × Bool
  | ⟨logOpen, compactionErr, bufSize, bufUsage, level0NumFiles⟩ =>
    if logOpen = false then (.none, false)
    else if compactionErr = true then (.none, false)
    else if bufUsage ≤ bufSize then (.none, false)
    else if level0NumFiles ≥ L0StopWritesFiles then (.none, true)
    else if bufUsage ≥ bufSize + bufSize / 4 then (.none, true)
    else if level0NumFiles ≥ L0SlowdownFiles then (.delay1ms, false)
    else (.none, false)

end Throttle

namespace Recover

/-- The file kinds distinguished by `files.Parse`, as enumerated in
`DB.removeObsoleteFiles` and `recoverDB` (db.go). -/
inductive FileKind where
  | invalid
  | lock
  | current
  | infoLog
  | temp
  | log
  | table
  | sstTable
  | manifest
deriving DecidableEq, Repr

/-- One directory entry after `files.Parse(filename)`: its kind and its
decoded file number. -/
structure ParsedFile where
  kind : FileKind
  number : Nat
deriving DecidableEq, Repr

/-- The fold body of `recoverDB`'s directory scan (db.go:786-796): the
`tables` set (a Go `map[uint64]struct{}`, modelled as a duplicate-free list)
loses `number` on a `Table` entry, and `logs` gains `number` on a `Log` entry
whose number is at least the recovered log number. -/
def scanStep (logNumber : Nat) (acc : List Nat × List Nat) (f : ParsedFile) :
    List Nat × List Nat :=
  match f.kind with
  | .table => (acc.1.filter (fun n => n ≠ f.number), acc.2)
  | .log => if f.number ≥ logNumber then (acc.1, acc.2 ++ [f.number]) else acc
  | _ => acc

/-- Shallow embedding of the missing-tables check in `recoverDB`
(db.go:784-799).  `liveTables` stands for the table numbers referenced by the
recovered version; it is a parameter of the model but — exactly as in the
source, where `tables := make(map[uint64]struct{})` is created empty and
never populated from the version state — the scan starts from the empty set
and the recovered version is never consulted.  The result is `true` iff
`recoverDB` returns the "leveldb: missing tables" error. -/
def recoverMissingTables (liveTables : List Nat) (logNumber : Nat)
    (filenames : List ParsedFile) : Bool :=
  let _ := liveTables
  let tables := (filenames.foldl (scanStep logNumber) ([], [])).1
  tables.length ≠ 0

end Recover

namespace Throttle

/-- Claim C7: the claim states that `DB.throttle` pauses writes exactly when the
memtable usage is at least 1.25 times the write-buffer size or the level-0
file count is at least 12.  This is false on the code: with an open log, no
compaction error, write-buffer size 1000, memtable usage 500 and twelve
level-0 files, the level-0 stop condition of the claim holds, yet `throttle`
returns no pause (and no delay), because the source returns early whenever
`bufUsage <= bufSize` (db.go:501). -/
theorem throttle_claim_false :
    (CoordView.mk true false 1000 500 12).level0NumFiles ≥ L0StopWritesFiles ∧
      throttle (CoordView.mk true false 1000 500 12) = (Slowdown.none, false) := by
  decide

/-- Claim C7 (amended): with an open log and no pending compaction error,
`DB.throttle` pauses exactly when the memtable usage strictly exceeds the
write-buffer size and, in addition, either the level-0 file count is at least
12 or the usage is at least `bufSize + bufSize/4` (Go integer division); it
inserts the 1-millisecond delay exactly when the usage strictly exceeds the
write-buffer size, stays below `bufSize + bufSize/4`, and the level-0 file
count is at least 8 but below 12. -/
theorem throttle_characterization (s : CoordView)
    (hlog : s.logOpen = true) (herr : s.compactionErr = false) :
    ((throttle s).2 = true ↔
      (s.writeBufferSize < s.bufUsage ∧
        (L0StopWritesFiles ≤ s.level0NumFiles ∨
          s.writeBufferSize + s.writeBufferSize / 4 ≤ s.bufUsage))) ∧
    ((throttle s).1 = Slowdown.delay1ms ↔
      (s.writeBufferSize < s.bufUsage ∧
        s.bufUsage < s.writeBufferSize + s.writeBufferSize / 4 ∧
        s.level0NumFiles < L0StopWritesFiles ∧
        L0SlowdownFiles ≤ s.level0NumFiles)) := by
  obtain ⟨lo, ce, ws, bu, l0⟩ := s
  have hlo : lo = true := hlog
  have hce : ce = false := herr
  subst hlo
  subst hce
  simp only [throttle, L0SlowdownFiles, L0StopWritesFiles]
  norm_num
  split_ifs with h1 h2 h3 h4 <;> refine ⟨?_, ?_⟩ <;> simp <;> omega

/-- Witness for `throttle_characterization`: a concrete state (open log, no
compaction error, write-buffer 100, usage 110, nine level-0 files) on which
the code inserts the 1 ms delay. -/
theorem throttle_characterization_witness :
    (throttle (CoordView.mk true false 100 110 9)).1 = Slowdown.delay1ms :=
  (throttle_characterization (CoordView.mk true false 100 110 9) rfl rfl).2.mpr
    (by decide)

end Throttle

namespace Recover

/-- Claim C5: the claim states that `Open` fails with a missing-tables corruption
error when the recovered version references a table file absent from the
directory listing.  The code cannot do so: the `tables` map in `recoverDB`
(db.go:785) is created empty and never populated from the recovered version,
so the `len(tables) != 0` check (db.go:797) is dead.  Concretely, with a
recovered version referencing table file 7 and a directory containing only
the current log (number 3) and a manifest, no error is produced — and, in
general, the check returns no error on every input. -/
theorem recoverDB_missing_table_check_dead :
    recoverMissingTables [7] 3
      [ParsedFile.mk .log 3, ParsedFile.mk .manifest 2, ParsedFile.mk .current 0]
      = false ∧
    ∀ liveTables logNumber filenames,
      recoverMissingTables liveTables logNumber filenames = false := by
  have key : ∀ (filenames : List ParsedFile) (logNumber : Nat) (logs : List Nat),
      (filenames.foldl (scanStep logNumber) ([], logs)).1 = [] := by
    intro filenames
    induction filenames with
    | nil => intro logNumber logs; rfl
    | cons f rest ih =>
      intro logNumber logs
      cases hk : f.kind <;>
        simp only [List.foldl_cons, scanStep, hk] <;>
        first
          | exact ih logNumber logs
          | (split <;> exact ih logNumber _)
  constructor
  · simp only [recoverMissingTables, key, List.length_nil, ne_eq, decide_not]
    rfl
  · intro liveTables logNumber filenames
    simp only [recoverMissingTables, key, List.length_nil, ne_eq, decide_not]
    rfl

end Recover

namespace Coord

/-- An error value (the Go `error` interface), distinguished by an arbitrary
code so that distinct errors stay distinct in the model. -/
inductive Err where
  | ioError (code : Nat)
  | dbClosed
deriving DecidableEq, Repr

/-- `keys.Value` / `keys.Delete`: the one-byte value kind (spec §3). -/
inductive Kind where
  | value
  | deletion
deriving DecidableEq, Repr

/-- One batch item `[kind][key][value]` (spec §3).  Keys and values are byte
strings compared through the user comparator; the model uses `Nat`. -/
structure Item where
  kind : Kind
  key : Nat
  val : Nat
deriving DecidableEq, Repr

/-- One memtable entry: the internal key `(user_key, sequence, kind)`
plus the value bytes (spec §3, §4.4). -/
structure Entry where
  key : Nat
  seq : Nat
  kind : Kind
  val : Nat
deriving DecidableEq, Repr

/-- Modelled from the spec: `batch.Iterate(db.mem)` applies the batch's items
to the memtable; §3 fixes that a batch of `n` items consumes the `n`
consecutive sequences starting at the batch's sequence, item `i` receiving
`seq + i`. -/
def numberItems (seq : Nat) : List Item → List Entry
  | [] => []
  | it :: rest => Entry.mk it.key seq it.kind it.val :: numberItems (seq + 1) rest

/-- Modelled from the spec: applying the numbered batch to the memtable
appends its entries. -/
def memApplyBatch (mem : List Entry) (seq : Nat) (items : List Item) : List Entry :=
  mem ++ numberItems seq items

/-- The coordinator state touched by `DB.writeBatchGroup`, `DB.closeLog` and
`DB.openLog` (db.go): `db.state.LastSequence()`, whether `db.log` is non-nil,
`db.logErr`, `db.compactionErr`, the two memtables, and the batches so far
appended to the current log. -/
structure State where
  lastSeq : Nat
  logOpen : Bool
  logErr : Option Err
  compactionErr : Option Err
  mem : List Entry
  imm : Option (List Entry)
  logData : List (Nat × List Item)
deriving DecidableEq, Repr

/-- Observable actions of the serving routine, in program order: a successful
log append (`db.writeLog`), a failed log append, the memtable application
(`batch.Iterate(db.mem)`), and one reply per queued request
(`writes.Send`). -/
inductive Ev where
  | logAppend (seq : Nat) (items : List Item)
  | logAppendFail (e : Err)
  | memApply (seq : Nat) (items : List Item)
  | reply (e : Option Err)
deriving DecidableEq, Repr

/-- A drained write group (`batch.Group`): the concatenated requests'
batches, each with its reply channel, and whether any request asked for a
sync.  `writes.Empty()` is `reqs = []`; the concatenated batch's items are
`reqs.join` and its count is their number. -/
structure Group where
  sync : Bool
  reqs : List (List Item)
deriving DecidableEq, Repr

/-- The concatenated batch of a group. -/
def Group.items (g : Group) : List Item := g.reqs.flatten

/-- `writes.Send(err)`: one reply per queued request, in order. -/
def sendAll (g : Group) (e : Option Err) : List Ev :=
  g.reqs.map (fun _ => Ev.reply e)

/-- Shallow embedding of `DB.closeLog` (db.go:474-482): drop the log writer,
record the error, close the file. -/
def closeLog (st : State) (e : Option Err) : State :=
  { st with logOpen := false, logErr := e }

/-- Shallow embedding of `DB.openLog` (db.go:459-472): install the newly
opened log file, clear `logErr`, and, when the active memtable is non-empty,
freeze it to the immutable slot and start from a fresh memtable (the
`tryMemoryCompaction` call only spawns background work). -/
def openLog (st : State) : State :=
  let st' := { st with logOpen := true, logErr := none }
  if st'.mem.isEmpty then st'
  else { st' with imm := some st'.mem, mem := [] }

/-- Shallow embedding of `DB.writeBatchGroup` (db.go:516-539).  The outcome
of the log append (`db.writeLog`, whose error comes from the file system) is
the explicit parameter `logResult`; `none` is success.  The returned event
list records the coordinator's actions in program order. -/
def writeBatchGroup (st : State) (g : Group) (logResult : Option Err) :
    State × List Ev :=
  if g.reqs.isEmpty then (st, [])
  else if st.logOpen = false then (st, sendAll g st.logErr)
  else if st.compactionErr.isSome then (st, sendAll g st.compactionErr)
  else
    let seq := st.lastSeq + 1
    let st1 := { st with lastSeq := st.lastSeq + g.items.length }
    match logResult with
    | some e => (closeLog st1 (some e), Ev.logAppendFail e :: sendAll g (some e))
    | none =>
      ({ st1 with
          mem := memApplyBatch st1.mem seq g.items,
          logData := st1.logData ++ [(seq, g.items)] },
        Ev.logAppend seq g.items :: Ev.memApply seq g.items :: sendAll g none)

/-- Inputs consumed by the serving routine `DB.serve` (db.go:547-603) that
matter to the log-error lifecycle: a drained write group together with the
log-append outcome; an arrival on `db.nextLogFile` (`ok = false` is the `nil`
file sent when the opener loses the race with closing); and a compaction
result, whose handling in `DB.completeCompaction` (db.go:293-313) stores the
attempt's error in `db.compactionErr` (the version-edit application on
success is outside this model). -/
inductive In where
  | write (g : Group) (logResult : Option Err)
  | nextLog (ok : Bool)
  | compactionDone (e : Option Err)
deriving DecidableEq, Repr

/-- One dispatch of the serving loop on an input. -/
def step (st : State) : In → State × List Ev
  | .write g r => writeBatchGroup st g r
  | .nextLog ok => (if ok then openLog st else st, [])
  | .compactionDone e => ({ st with compactionErr := e }, [])

/-- The serving loop run over a list of inputs, concatenating events. -/
def run (st : State) : List In → State × List Ev
  | [] => (st, [])
  | e :: es =>
    ((run (step st e).1 es).1, (step st e).2 ++ (run (step st e).1 es).2)

/-- A fresh coordinator state with an open log (as after `createDB`). -/
def init : State :=
  { lastSeq := 0, logOpen := true, logErr := none, compactionErr := none,
    mem := [], imm := none, logData := [] }

end Coord

namespace Compaction

/-- `time.Second` in nanoseconds (`time.Duration` is an integer nanosecond
count). -/
def second : Nat := 1000000000

/-- The timeout update after a failed attempt in `DB.compactAndLog`
(db.go:282): `timeout += timeout/2 + time.Second`, with Go's integer
division. -/
def backoffStep (t : Nat) : Nat := t + t / 2 + second

/-- Observable actions of `DB.compactAndLog` (db.go:257-291): a failure
report `compactionResult{level, err}` (db.go:281), the success report
`compactionResult{level, edit}` (db.go:276), the aborted report sent when
`bgClosing` fires (db.go:286), and a sleep of `timeout` nanoseconds in
`time.After(timeout)` (db.go:288). -/
inductive REv where
  | sentErr
  | sentSuccess
  | sentAborted
  | slept (d : Nat)
deriving DecidableEq, Repr

/-- The retry loop of `DB.compactAndLog` from the point where the compaction
itself has succeeded (`compacted = true`, `timeout = 0`, db.go:270-271),
running until the manifest-log append succeeds: the argument counts the
failed `db.state.Log(edit)` attempts before the successful one.  Each failed
iteration reports the error, grows the timeout by `backoffStep`, and sleeps
it. -/
def logRetry (timeout : Nat) : Nat → List REv
  | 0 => [.sentSuccess]
  | k + 1 =>
    let t := backoffStep timeout
    .sentErr :: .slept t :: logRetry t k

/-- `DB.compactAndLog`'s manifest-log retry run: `logFails` failed attempts,
then success. -/
def compactAndLogRun (logFails : Nat) : List REv := logRetry 0 logFails

/-- The same loop when `bgClosing` fires during the sleep that follows the
last of the failed attempts: the produced table files are removed and the
aborted result is reported (db.go:284-287). -/
def logRetryClosed (timeout : Nat) : Nat → List REv
  | 0 => [.sentErr, .sentAborted]
  | k + 1 =>
    let t := backoffStep timeout
    .sentErr :: .slept t :: logRetryClosed t k

/-- `DB.compactAndLog` closed during the sleep after failure `j + 1`. -/
def compactAndLogClosedRun (j : Nat) : List REv := logRetryClosed 0 j

/-- The sleeps of a run, in order. -/
def delays (evs : List REv) : List Nat :=
  evs.filterMap (fun e => match e with | .slept d => some d | _ => none)

end Compaction

namespace Coord

theorem numberItems_map_seq (seq : Nat) (items : List Item) :
    (numberItems seq items).map Entry.seq = List.range' seq items.length := by
  induction items generalizing seq with
  | nil => rfl
  | cons it rest ih =>
    simp only [numberItems, List.map_cons, List.length_cons, List.range'_succ]
    exact congrArg _ (ih (seq + 1))

/-- Claim C2: on a non-empty write group with an open log, no pending
compaction error and a successful log append, `DB.writeBatchGroup`
(db.go:516-539) assigns the concatenated batch the sequence
`lastSequence + 1`, advances `lastSequence` by exactly the batch's item
count `n` (so the `n` items receive the `n` consecutive sequences
`lastSequence+1, …, lastSequence+n`, and the sequence assigned to the next
group is strictly larger), and its actions happen in the order: log append,
then memtable application, then the success replies. -/
theorem writeBatchGroup_commit (st : State) (g g' : Group)
    (hne : g.reqs ≠ []) (hne' : g'.reqs ≠ [])
    (hlog : st.logOpen = true) (hcerr : st.compactionErr = none)
    (hn : 0 < g.items.length) :
    (writeBatchGroup st g none).1.lastSeq = st.lastSeq + g.items.length ∧
    (writeBatchGroup st g none).2 =
      Ev.logAppend (st.lastSeq + 1) g.items ::
        Ev.memApply (st.lastSeq + 1) g.items :: sendAll g none ∧
    ((writeBatchGroup st g none).1.mem.drop st.mem.length).map Entry.seq =
      List.range' (st.lastSeq + 1) g.items.length ∧
    (writeBatchGroup (writeBatchGroup st g none).1 g' none).2.head? =
      some (Ev.logAppend (st.lastSeq + g.items.length + 1) g'.items) ∧
    st.lastSeq + 1 < st.lastSeq + g.items.length + 1 := by
  have hE : g.reqs.isEmpty = false := by
    cases h : g.reqs with
    | nil => exact absurd h hne
    | cons a l => rfl
  have hE' : g'.reqs.isEmpty = false := by
    cases h : g'.reqs with
    | nil => exact absurd h hne'
    | cons a l => rfl
  refine ⟨?_, ?_, ?_, ?_, by omega⟩
  · simp [writeBatchGroup, hE, hlog, hcerr]
  · simp [writeBatchGroup, hE, hlog, hcerr]
  · have h3 : (writeBatchGroup st g none).1.mem =
        st.mem ++ numberItems (st.lastSeq + 1) g.items := by
      simp [writeBatchGroup, hE, hlog, hcerr, memApplyBatch]
    rw [h3, List.drop_left]
    exact numberItems_map_seq (st.lastSeq + 1) g.items
  · simp [writeBatchGroup, hE, hE', hlog, hcerr]

end Coord

namespace Coord

/-- A two-request group used by witnesses: a put of key 1 and a deletion of
key 2. -/
def gA : Group := ⟨false, [[⟨.value, 1, 10⟩], [⟨.deletion, 2, 0⟩]]⟩

/-- A one-request group used by witnesses. -/
def gB : Group := ⟨false, [[⟨.value, 3, 30⟩]]⟩

/-- Witness for `writeBatchGroup_commit`: the commit facts evaluated on a
fresh coordinator and two concrete groups. -/
theorem writeBatchGroup_commit_witness :
    (writeBatchGroup init gA none).1.lastSeq = init.lastSeq + gA.items.length ∧
    (writeBatchGroup init gA none).2 =
      Ev.logAppend (init.lastSeq + 1) gA.items ::
        Ev.memApply (init.lastSeq + 1) gA.items :: sendAll gA none ∧
    ((writeBatchGroup init gA none).1.mem.drop init.mem.length).map Entry.seq =
      List.range' (init.lastSeq + 1) gA.items.length ∧
    (writeBatchGroup (writeBatchGroup init gA none).1 gB none).2.head? =
      some (Ev.logAppend (init.lastSeq + gA.items.length + 1) gB.items) ∧
    init.lastSeq + 1 < init.lastSeq + gA.items.length + 1 :=
  writeBatchGroup_commit init gA gB (by decide) (by decide) rfl rfl (by decide)

/-- Every event sent by `writes.Send` is a reply carrying the given error. -/
theorem mem_sendAll {g : Group} {e : Option Err} {ev : Ev}
    (h : ev ∈ sendAll g e) : ev = Ev.reply e := by
  simp only [sendAll, List.mem_map] at h
  obtain ⟨_, _, rfl⟩ := h
  rfl

/-- While the log stays closed with a stored error and no pre-opened log
file arrives, every reply the serving loop produces carries that stored
error. -/
theorem run_closed_all_replies_err (e : Err) :
    ∀ (es : List In) (st : State), st.logOpen = false → st.logErr = some e →
      (∀ i ∈ es, i ≠ In.nextLog true) →
      ∀ x, Ev.reply x ∈ (run st es).2 → x = some e := by
  intro es
  induction es with
  | nil =>
    intro st _ _ _ x hx
    simp [run] at hx
  | cons i rest ih =>
    intro st hlo hle hni x hx
    have hrest : ∀ j ∈ rest, j ≠ In.nextLog true :=
      fun j hj => hni j (List.mem_cons_of_mem _ hj)
    cases i with
    | write g r =>
      by_cases hg : g.reqs.isEmpty
      · simp only [run, step, writeBatchGroup, hg, if_true] at hx ⊢
        exact ih st hlo hle hrest x (by simpa using hx)
      · have hstep : step st (In.write g r) = (st, sendAll g (some e)) := by
          simp [step, writeBatchGroup, hg, hlo, hle]
        simp only [run, hstep, List.mem_append] at hx
        rcases hx with h | h
        · have := mem_sendAll h
          injection this
        · exact ih st hlo hle hrest x h
    | nextLog ok =>
      cases ok with
      | true => exact absurd rfl (hni _ (List.mem_cons_self _ _))
      | false =>
        simp only [run, step, Bool.false_eq_true, if_false, List.nil_append] at hx
        exact ih st hlo hle hrest x hx
    | compactionDone e' =>
      simp only [run, step, List.nil_append] at hx
      exact ih { st with compactionErr := e' } hlo hle hrest x hx

/-- Claim C4: in the execution where no pre-opened log file is pending, a
log-append error fails the group, closes the log, and every later write is
refused with that stored error; but the absolute claim "every subsequent
write fails until the database is closed" is refuted by
`logError_not_sticky_until_close` below, because an already-requested next
log file can still arrive and be installed.  This theorem is the amended
statement: after `DB.writeBatchGroup` hits log-append error `e`, the group's
replies all carry `e`, the coordinator has closed the log
(`DB.closeLog`, db.go:532) storing `e`, and every reply produced by the
serving loop on any further input sequence that contains no successful
next-log arrival carries `e`. -/
theorem writeBatchGroup_logError_sticky (st : State) (g : Group) (e : Err)
    (es : List In) (hne : g.reqs ≠ []) (hlog : st.logOpen = true)
    (hcerr : st.compactionErr = none)
    (hes : ∀ i ∈ es, i ≠ In.nextLog true) :
    (writeBatchGroup st g (some e)).2 =
      Ev.logAppendFail e :: sendAll g (some e) ∧
    (writeBatchGroup st g (some e)).1.logOpen = false ∧
    (writeBatchGroup st g (some e)).1.logErr = some e ∧
    ∀ x, Ev.reply x ∈ (run (writeBatchGroup st g (some e)).1 es).2 →
      x = some e := by
  have hE : g.reqs.isEmpty = false := by
    cases h : g.reqs with
    | nil => exact absurd h hne
    | cons a l => rfl
  have h1 : writeBatchGroup st g (some e) =
      (closeLog { st with lastSeq := st.lastSeq + g.items.length } (some e),
        Ev.logAppendFail e :: sendAll g (some e)) := by
    simp [writeBatchGroup, hE, hlog, hcerr]
  refine ⟨by rw [h1], by rw [h1]; rfl, by rw [h1]; rfl, ?_⟩
  intro x hx
  exact run_closed_all_replies_err e es _ (by rw [h1]; rfl) (by rw [h1]; rfl)
    hes x hx

/-- Witness for `writeBatchGroup_logError_sticky`: a concrete failed group
on a fresh coordinator. -/
theorem writeBatchGroup_logError_sticky_witness :
    (writeBatchGroup init gA (some (Err.ioError 7))).2 =
      Ev.logAppendFail (Err.ioError 7) :: sendAll gA (some (Err.ioError 7)) ∧
    (writeBatchGroup init gA (some (Err.ioError 7))).1.logOpen = false :=
  ⟨(writeBatchGroup_logError_sticky init gA (Err.ioError 7)
      [In.write gB none] (by decide) rfl rfl (by decide)).1,
   (writeBatchGroup_logError_sticky init gA (Err.ioError 7)
      [In.write gB none] (by decide) rfl rfl (by decide)).2.1⟩

/-- Claim C4 (counterexample to the unqualified claim): a write group hits a
log error, so its request is failed and the log closed; but a next log file
that the throttle had requested earlier (db.go:506) then arrives on
`db.nextLogFile` and `DB.serve` installs it (db.go:571-577), clearing the
stored error — after which a subsequent write succeeds (final `reply none`),
even though the database was never closed. -/
theorem logError_not_sticky_until_close :
    (run init
      [In.write gA (some (Err.ioError 0)), In.nextLog true,
        In.write gB none]).2 =
      [Ev.logAppendFail (Err.ioError 0), Ev.reply (some (Err.ioError 0)),
        Ev.reply (some (Err.ioError 0)),
        Ev.logAppend 3 gB.items, Ev.memApply 3 gB.items, Ev.reply none] := by
  decide

end Coord

namespace Compaction

theorem delays_logRetry_succ (t k : Nat) :
    delays (logRetry t (k + 1)) =
      backoffStep t :: delays (logRetry (backoffStep t) k) := by
  simp [logRetry, delays]

theorem delays_logRetry_head (t : Nat) : ∀ n, 0 < n →
    (delays (logRetry t n)).head? = some (backoffStep t) := by
  intro n hn
  cases n with
  | zero => omega
  | succ k => rw [delays_logRetry_succ]; rfl

theorem delays_logRetry_chain :
    ∀ (n t : Nat), List.Chain' (fun a b => b = backoffStep a)
      (delays (logRetry t n)) := by
  intro n
  induction n with
  | zero => intro t; simp [logRetry, delays]
  | succ k ih =>
    intro t
    rw [delays_logRetry_succ, List.chain'_cons']
    refine ⟨?_, ih (backoffStep t)⟩
    intro b hb
    cases k with
    | zero => simp [logRetry, delays] at hb
    | succ m =>
      rw [delays_logRetry_head (backoffStep t) (m + 1) (Nat.succ_pos m)] at hb
      injection hb with hb
      omega

theorem delays_logRetry_length : ∀ (n t : Nat),
    (delays (logRetry t n)).length = n := by
  intro n
  induction n with
  | zero => intro t; rfl
  | succ k ih => intro t; rw [delays_logRetry_succ]; simp [ih]

theorem count_sentErr_logRetry : ∀ (n t : Nat),
    (logRetry t n).count REv.sentErr = n := by
  intro n
  induction n with
  | zero => intro t; rfl
  | succ k ih =>
    intro t
    simp [logRetry, List.count_cons, ih]

theorem getLast_logRetry : ∀ (n t : Nat),
    (logRetry t n).getLast? = some REv.sentSuccess := by
  intro n
  induction n with
  | zero => intro t; rfl
  | succ k ih =>
    intro t
    have h := ih (backoffStep t)
    cases hc : logRetry (backoffStep t) k with
    | nil => rw [hc] at h; simp at h
    | cons c l =>
      rw [hc] at h
      show (REv.sentErr :: REv.slept (backoffStep t) ::
        logRetry (backoffStep t) k).getLast? = some REv.sentSuccess
      rw [hc, List.getLast?_cons_cons, List.getLast?_cons_cons]
      exact h

theorem getLast_logRetryClosed : ∀ (n t : Nat),
    (logRetryClosed t n).getLast? = some REv.sentAborted := by
  intro n
  induction n with
  | zero => intro t; rfl
  | succ k ih =>
    intro t
    have h := ih (backoffStep t)
    cases hc : logRetryClosed (backoffStep t) k with
    | nil => rw [hc] at h; simp at h
    | cons c l =>
      rw [hc] at h
      show (REv.sentErr :: REv.slept (backoffStep t) ::
        logRetryClosed (backoffStep t) k).getLast? = some REv.sentAborted
      rw [hc, List.getLast?_cons_cons, List.getLast?_cons_cons]
      exact h

/-- Claim C9 (counterexample): the claim says the retry delays are 1 s,
1.5 s, 2.25 s, … (each 1.5 times the previous).  On the code the second
delay is already different: `timeout += timeout/2 + time.Second`
(db.go:282) gives 1 s then 2.5 s, and 2.5 s is not the claimed 1.5 s. -/
theorem compactAndLog_backoff_claim_false :
    delays (compactAndLogRun 2) = [second, 2 * second + second / 2] ∧
      (2 * second + second / 2 : Nat) ≠ 3 * second / 2 := by
  decide

/-- Claim C9 (amended): after the compaction body succeeds, the manifest-log
retry loop of `DB.compactAndLog` (db.go:262-290) sleeps, between failed
attempts, delays that start at 1 s and then follow
`timeout += timeout/2 + 1 s` (so 1 s, 2.5 s, 4.75 s, …, with no cap); with
`n` failures before a success there are exactly `n` delays, each failure is
reported to the coordinator on `compactionResultc`, and the loop ends with
the success report — or with the aborted report when the database closes
during a sleep.  `DB.completeCompaction` (db.go:303) stores each reported
error in `db.compactionErr`, and `DB.writeBatchGroup` (db.go:522-523) then
refuses new write groups with exactly that error. -/
theorem compactAndLog_backoff (n j : Nat) (hn : 0 < n)
    (cst : Coord.State) (cg : Coord.Group) (ce : Coord.Err)
    (r : Option Coord.Err)
    (hlog : cst.logOpen = true) (hne : cg.reqs ≠ []) :
    (delays (compactAndLogRun n)).head? = some second ∧
    List.Chain' (fun a b => b = backoffStep a) (delays (compactAndLogRun n)) ∧
    (delays (compactAndLogRun n)).length = n ∧
    (compactAndLogRun n).count REv.sentErr = n ∧
    (compactAndLogRun n).getLast? = some REv.sentSuccess ∧
    (compactAndLogClosedRun j).getLast? = some REv.sentAborted ∧
    (Coord.step cst (Coord.In.compactionDone (some ce))).1.compactionErr
      = some ce ∧
    (Coord.writeBatchGroup
        (Coord.step cst (Coord.In.compactionDone (some ce))).1 cg r).2 =
      Coord.sendAll cg (some ce) := by
  have hE : cg.reqs.isEmpty = false := by
    cases h : cg.reqs with
    | nil => exact absurd h hne
    | cons a l => rfl
  refine ⟨?_, delays_logRetry_chain n 0, delays_logRetry_length n 0,
    count_sentErr_logRetry n 0, getLast_logRetry n 0,
    getLast_logRetryClosed j 0, rfl, ?_⟩
  · have h := delays_logRetry_head 0 n hn
    simpa [backoffStep, second] using h
  · simp [Coord.step, Coord.writeBatchGroup, hE, hlog]

/-- Witness for `compactAndLog_backoff`: three failed manifest-log attempts
then success, with a concrete coordinator state and group. -/
theorem compactAndLog_backoff_witness :
    (delays (compactAndLogRun 3)).head? = some second ∧
    List.Chain' (fun a b => b = backoffStep a) (delays (compactAndLogRun 3)) ∧
    (delays (compactAndLogRun 3)).length = 3 ∧
    (compactAndLogRun 3).count REv.sentErr = 3 ∧
    (compactAndLogRun 3).getLast? = some REv.sentSuccess ∧
    (compactAndLogClosedRun 2).getLast? = some REv.sentAborted ∧
    (Coord.step Coord.init
        (Coord.In.compactionDone (some (Coord.Err.ioError 9)))).1.compactionErr
      = some (Coord.Err.ioError 9) ∧
    (Coord.writeBatchGroup
        (Coord.step Coord.init
          (Coord.In.compactionDone (some (Coord.Err.ioError 9)))).1
        Coord.gA none).2 =
      Coord.sendAll Coord.gA (some (Coord.Err.ioError 9)) :=
  compactAndLog_backoff 3 2 (by decide) Coord.init Coord.gA
    (Coord.Err.ioError 9) none rfl (by decide)

end Compaction

namespace FileIter

/-- The loop of Go's `sort.Search`: binary search maintaining
`i <= answer <= j`, halving with `h := (i+j)/2` and moving `i = h+1` when
`f(h)` is false, `j = h` when it is true.  The interval shrinks by at least
one element per iteration, so a fuel of the initial interval width bounds
the loop; the fuel-exhausted branch is unreachable under
`j - i <= fuel`. -/
def sortSearchLoop (f : Nat → Bool) : Nat → Nat → Nat → Nat
  | 0, i, _ => i
  | fuel + 1, i, j =>
    if i < j then
      if f ((i + j) / 2) then sortSearchLoop f fuel i ((i + j) / 2)
      else sortSearchLoop f fuel ((i + j) / 2 + 1) j
    else i

/-- Go's `sort.Search(n, f)`: assuming `f` is monotone on `[0, n)`, the
smallest index in `[0, n]` at which `f` is true (`n` when there is none). -/
def sortSearch (n : Nat) (f : Nat → Bool) : Nat := sortSearchLoop f n 0 n

theorem sortSearchLoop_spec (n : Nat) (f : Nat → Bool)
    (hmono : ∀ a b, a ≤ b → b < n → f a = true → f b = true) :
    ∀ (fuel i j : Nat), j - i ≤ fuel → j ≤ n → i ≤ j →
      i ≤ sortSearchLoop f fuel i j ∧ sortSearchLoop f fuel i j ≤ j ∧
      (∀ a, i ≤ a → a < sortSearchLoop f fuel i j → f a = false) ∧
      (∀ b, sortSearchLoop f fuel i j ≤ b → b < j → f b = true) := by
  intro fuel
  induction fuel with
  | zero =>
    intro i j hd hjn hij
    simp only [sortSearchLoop]
    exact ⟨le_refl i, by omega, fun a ha1 ha2 => by omega,
      fun b hb1 hb2 => by omega⟩
  | succ d ih =>
    intro i j hd hjn hij
    by_cases hlt : i < j
    · rw [sortSearchLoop, if_pos hlt]
      by_cases hfm : f ((i + j) / 2) = true
      · rw [if_pos hfm]
        obtain ⟨h1, h2, h3, h4⟩ :=
          ih i ((i + j) / 2) (by omega) (by omega) (by omega)
        refine ⟨h1, by omega, h3, fun b hb1 hb2 => ?_⟩
        by_cases hbm : b < (i + j) / 2
        · exact h4 b hb1 hbm
        · exact hmono ((i + j) / 2) b (by omega) (by omega) hfm
      · rw [if_neg hfm]
        obtain ⟨h1, h2, h3, h4⟩ :=
          ih ((i + j) / 2 + 1) j (by omega) hjn (by omega)
        refine ⟨by omega, h2, fun a ha1 ha2 => ?_, h4⟩
        by_cases ham : (i + j) / 2 + 1 ≤ a
        · exact h3 a ham ha2
        · rcases Bool.eq_false_or_eq_true (f a) with h | h
          · exact absurd (hmono a ((i + j) / 2) (by omega) (by omega) h) hfm
          · exact h
    · rw [sortSearchLoop, if_neg hlt]
      exact ⟨le_refl i, by omega, fun a ha1 ha2 => by omega,
        fun b hb1 hb2 => by omega⟩

theorem sortSearch_least (n : Nat) (f : Nat → Bool)
    (hmono : ∀ a b, a ≤ b → b < n → f a = true → f b = true) :
    sortSearch n f ≤ n ∧
    (∀ a, a < sortSearch n f → f a = false) ∧
    (sortSearch n f < n → f (sortSearch n f) = true) := by
  obtain ⟨h1, h2, h3, h4⟩ :=
    sortSearchLoop_spec n f hmono n 0 n (by omega) (le_refl n) (Nat.zero_le n)
  exact ⟨h2, fun a ha => h3 a (Nat.zero_le a) ha, fun h => h4 _ (le_refl _) h⟩

/-- `version.FileMeta`, restricted to the fields `fileIterator` reads; keys
are ordered by the internal-key comparator, modelled as `Nat`. -/
structure FileMeta where
  number : Nat
  size : Nat
  smallest : Nat
  largest : Nat
deriving DecidableEq, Repr

/-- The `fileIterator` state (internal/version/file_iterator.go:13-21):
`open`, the signed `index` (a Go `int`, which `Prev` can drive to −1), and
the file list.  The table cache and read options play no part in
positioning. -/
structure FileIterator where
  isOpen : Bool
  index : Int
  files : List FileMeta
deriving DecidableEq, Repr

/-- The largest key of `files[i]` (the closure in `Seek` only indexes inside
the list; the default is never reached under `i < files.length`). -/
def largestAt (files : List FileMeta) (i : Nat) : Nat :=
  (files.getD i ⟨0, 0, 0, 0⟩).largest

/-- `fileIterator.Valid` (file_iterator.go:57-59):
`index >= 0 && index < len(files)`. -/
def FileIterator.valid (it : FileIterator) : Bool :=
  decide (0 ≤ it.index) && decide (it.index < (it.files.length : Int))

/-- The index computed by `fileIterator.Seek` (file_iterator.go:51-55):
`sort.Search(len(files), func(i) { icmp.Compare(ikey, files[i].Largest) < 0 })`,
that is, the first index whose largest key is *strictly greater* than
`ikey`. -/
def seekIdx (files : List FileMeta) (ikey : Nat) : Nat :=
  sortSearch files.length (fun i => decide (ikey < largestAt files i))

/-- `fileIterator.Seek` (file_iterator.go:51-55): set `open`, position at
`seekIdx`, return `Valid()`. -/
def FileIterator.seek (it : FileIterator) (ikey : Nat) : FileIterator × Bool :=
  let it' := { it with isOpen := true, index := (seekIdx it.files ikey : Int) }
  (it', it'.valid)

/-- Claim C10 (counterexample): the claim says `Seek(k)` positions at the
first file whose largest key is greater than *or equal to* `k`, selecting a
file whose largest equals `k`, and returns false exactly when every largest
is strictly less than `k`.  On the code the comparison is strict
(`Compare(ikey, largest) < 0`): with a single file of largest key 5 and
`k = 5`, the file's largest is ≥ `k` yet `Seek` skips it and reports
invalid. -/
theorem fileIterator_seek_claim_false :
    (FileIterator.seek ⟨false, 0, [⟨1, 100, 3, 5⟩]⟩ 5).2 = false ∧
      5 ≤ largestAt [FileMeta.mk 1 100 3 5] 0 := by
  decide

/-- Claim C10 (amended): for a file list sorted by largest key,
`fileIterator.Seek(k)` positions the iterator at the first file whose
largest key is *strictly greater* than `k` (every earlier file's largest is
at most `k`, and the selected file's largest exceeds `k`), and it returns
false exactly when every file's largest key is at most `k`. -/
theorem fileIterator_seek_first_strictly_greater (it : FileIterator) (k : Nat)
    (hsorted : it.files.Pairwise (fun a b => a.largest ≤ b.largest)) :
    (it.seek k).1.index = (seekIdx it.files k : Int) ∧
    (∀ a, a < seekIdx it.files k → largestAt it.files a ≤ k) ∧
    (seekIdx it.files k < it.files.length →
      k < largestAt it.files (seekIdx it.files k)) ∧
    ((it.seek k).2 = true ↔ seekIdx it.files k < it.files.length) ∧
    ((it.seek k).2 = false ↔
      ∀ i, i < it.files.length → largestAt it.files i ≤ k) := by
  have hmono : ∀ a b, a ≤ b → b < it.files.length →
      decide (k < largestAt it.files a) = true →
      decide (k < largestAt it.files b) = true := by
    intro a b hab hb ha
    rw [decide_eq_true_iff] at ha ⊢
    rcases Nat.lt_or_ge a b with h | h
    · have ha' : a < it.files.length := by omega
      have hrel := (List.pairwise_iff_getElem.mp hsorted) a b ha' hb h
      have hga : largestAt it.files a = it.files[a].largest := by
        unfold largestAt
        rw [List.getD_eq_getElem it.files ⟨0, 0, 0, 0⟩ ha']
      have hgb : largestAt it.files b = it.files[b].largest := by
        unfold largestAt
        rw [List.getD_eq_getElem it.files ⟨0, 0, 0, 0⟩ hb]
      omega
    · have : a = b := by omega
      subst this
      exact ha
  have h1 : seekIdx it.files k ≤ it.files.length :=
    (sortSearch_least it.files.length _ hmono).1
  have h2 : ∀ a, a < seekIdx it.files k →
      decide (k < largestAt it.files a) = false :=
    (sortSearch_least it.files.length _ hmono).2.1
  have h3 : seekIdx it.files k < it.files.length →
      decide (k < largestAt it.files (seekIdx it.files k)) = true :=
    (sortSearch_least it.files.length _ hmono).2.2
  have hval : (it.seek k).2 = (it.seek k).1.valid := rfl
  have hidx : (it.seek k).1.index = (seekIdx it.files k : Int) := rfl
  refine ⟨hidx, ?_, ?_, ?_, ?_⟩
  · intro a ha
    have := h2 a ha
    rw [decide_eq_false_iff_not] at this
    omega
  · intro hlt
    have := h3 hlt
    rwa [decide_eq_true_iff] at this
  · rw [hval]
    unfold FileIterator.valid
    rw [hidx]
    constructor
    · intro h
      rw [Bool.and_eq_true, decide_eq_true_iff, decide_eq_true_iff] at h
      exact_mod_cast h.2
    · intro h
      rw [Bool.and_eq_true, decide_eq_true_iff, decide_eq_true_iff]
      exact ⟨by positivity, by exact_mod_cast h⟩
  · rw [hval]
    unfold FileIterator.valid
    rw [hidx]
    constructor
    · intro h i hi
      rw [Bool.and_eq_false_iff] at h
      have hn : it.files.length ≤ seekIdx it.files k := by
        rcases h with h | h
        · rw [decide_eq_false_iff_not] at h
          omega
        · rw [decide_eq_false_iff_not] at h
          have h' : ¬ ((seekIdx it.files k : Int) < (it.files.length : Int)) := h
          exact_mod_cast Int.not_lt.mp h'
      have := h2 i (by omega)
      rw [decide_eq_false_iff_not] at this
      omega
    · intro h
      rw [Bool.and_eq_false_iff]
      right
      rw [decide_eq_false_iff_not]
      intro hcon
      have hlt : seekIdx it.files k < it.files.length := by exact_mod_cast hcon
      have := h3 hlt
      rw [decide_eq_true_iff] at this
      exact absurd this (Nat.not_lt.mpr (h _ hlt))

/-- Witness for `fileIterator_seek_first_strictly_greater`: two files with
largest keys 5 and 9, seeking key 5 selects the file with largest 9. -/
theorem fileIterator_seek_witness :
    (FileIterator.seek ⟨false, 0, [⟨1, 100, 3, 5⟩, ⟨2, 100, 7, 9⟩]⟩ 5).1.index
      = (seekIdx [FileMeta.mk 1 100 3 5, FileMeta.mk 2 100 7 9] 5 : Int) ∧
    ((FileIterator.seek ⟨false, 0, [⟨1, 100, 3, 5⟩, ⟨2, 100, 7, 9⟩]⟩ 5).2 = true
      ↔ seekIdx [FileMeta.mk 1 100 3 5, FileMeta.mk 2 100 7 9] 5 < 2) :=
  ⟨(fileIterator_seek_first_strictly_greater
      ⟨false, 0, [⟨1, 100, 3, 5⟩, ⟨2, 100, 7, 9⟩]⟩ 5 (by decide)).1,
   (fileIterator_seek_first_strictly_greater
      ⟨false, 0, [⟨1, 100, 3, 5⟩, ⟨2, 100, 7, 9⟩]⟩ 5 (by decide)).2.2.2.1⟩

end FileIter

namespace LoadLog

open Coord in
/-- One complete record as delivered by `log.Reader.AppendRecord`, already
split by `batch.Split` (modelled from the spec, §8: `parse(encode(items,
seq)) = (seq, items)`, `none` when the batch is corrupt), together with the
reader's byte offset after the record (`r.Offset()`, spec §4.5). -/
structure LogRecord where
  parse : Option (Nat × List Item)
  endOffset : Nat
deriving DecidableEq, Repr

/-- How the record stream ends: clean EOF, a torn tail
(`log.ErrIncompleteRecord`), or another reader error. -/
inductive Tail where
  | eof
  | incomplete
  | readErr (e : Nat)
deriving DecidableEq, Repr

/-- Errors `DB.loadLog` can return: `errors.ErrCorruptWriteBatch`
(db.go:174) or a propagated reader error (db.go:168). -/
inductive LoadErr where
  | corruptWriteBatch
  | readErr (e : Nat)
deriving DecidableEq, Repr

open Coord in
/-- The successful outcome of `DB.loadLog`: the memtable contents, the
updated `maxSequence`, the returned offset, and the truncation point when
the file was truncated (`logFile.Truncate(offset)`, db.go:163). -/
structure LoadResult where
  mem : List Entry
  maxSequence : Nat
  offset : Nat
  truncatedAt : Option Nat
deriving DecidableEq, Repr

open Coord in
/-- The loop of `DB.loadLog` (db.go:155-180).  Each iteration reads one
record (`r.AppendRecord`): on success it splits the batch — failing with
`ErrCorruptWriteBatch` when the split fails or yields no items —, applies it
to the memtable (`mem.Batch`), and raises `maxSequence` to the batch's last
sequence; on `io.EOF` it returns the current offset; on
`ErrIncompleteRecord` it truncates the file at the offset after the last
complete record, seeks there, and returns successfully (the model treats the
`Seek` as succeeding); any other reader error is returned.  `off` is the
reader's offset after the records consumed so far. -/
def loadLogLoop (mem : List Entry) (maxSeq off : Nat) :
    List LogRecord → Tail → Except LoadErr LoadResult
  | [], .eof => .ok ⟨mem, maxSeq, off, none⟩
  | [], .incomplete => .ok ⟨mem, maxSeq, off, some off⟩
  | [], .readErr e => .error (.readErr e)
  | r :: rest, t =>
    match r.parse with
    | none => .error .corruptWriteBatch
    | some (seq, items) =>
      if items.isEmpty then .error .corruptWriteBatch
      else
        loadLogLoop (memApplyBatch mem seq items)
          (max maxSeq (seq + (items.length - 1))) r.endOffset rest t

open Coord in
/-- `DB.loadLog` (db.go:143-181) on an already-opened log file, starting
from memtable `mem0` and the caller's running `maxSequence`. -/
def loadLog (mem0 : List Entry) (maxSeq0 : Nat) (records : List LogRecord)
    (tail : Tail) : Except LoadErr LoadResult :=
  loadLogLoop mem0 maxSeq0 0 records tail

open Coord in
/-- Applying one complete record's batch to the memtable. -/
def applyRecord (m : List Entry) (r : LogRecord) : List Entry :=
  match r.parse with
  | some (seq, items) => memApplyBatch m seq items
  | none => m

/-- The offset after the last complete record (`0` when there is none). -/
def lastOffset (records : List LogRecord) : Nat :=
  ((records.getLast?).map LogRecord.endOffset).getD 0

/-- Claim C6: when the reader reports a torn tail after a sequence of
complete, well-formed batches, `DB.loadLog` truncates the file at the byte
offset after the last complete record, returns that offset with no error,
and has applied every complete batch to the memtable — so recovery
continues instead of failing. -/
theorem loadLog_truncates_torn_tail (mem0 : List Coord.Entry) (maxSeq0 : Nat)
    (records : List LogRecord)
    (hwf : ∀ r ∈ records, ∃ seq items,
      r.parse = some (seq, items) ∧ items ≠ []) :
    ∃ res, loadLog mem0 maxSeq0 records Tail.incomplete = .ok res ∧
      res.truncatedAt = some (lastOffset records) ∧
      res.offset = lastOffset records ∧
      res.mem = records.foldl applyRecord mem0 := by
  suffices h : ∀ (records : List LogRecord) (mem : List Coord.Entry)
      (maxSeq off : Nat),
      (∀ r ∈ records, ∃ seq items, r.parse = some (seq, items) ∧ items ≠ []) →
      ∃ res, loadLogLoop mem maxSeq off records Tail.incomplete = .ok res ∧
        res.truncatedAt = some (((records.getLast?).map
          LogRecord.endOffset).getD off) ∧
        res.offset = ((records.getLast?).map LogRecord.endOffset).getD off ∧
        res.mem = records.foldl applyRecord mem by
    obtain ⟨res, h1, h2, h3, h4⟩ := h records mem0 maxSeq0 0 hwf
    exact ⟨res, h1, h2, h3, h4⟩
  intro records
  induction records with
  | nil =>
    intro mem maxSeq off _
    exact ⟨⟨mem, maxSeq, off, some off⟩, rfl, rfl, rfl, rfl⟩
  | cons r rest ih =>
    intro mem maxSeq off hwf
    obtain ⟨seq, items, hparse, hne⟩ := hwf r (List.mem_cons_self _ _)
    have hitems : items.isEmpty = false := by
      cases items with
      | nil => exact absurd rfl hne
      | cons a l => rfl
    obtain ⟨res, h1, h2, h3, h4⟩ :=
      ih (Coord.memApplyBatch mem seq items)
        (max maxSeq (seq + (items.length - 1))) r.endOffset
        (fun r' hr' => hwf r' (List.mem_cons_of_mem _ hr'))
    refine ⟨res, ?_, ?_, ?_, ?_⟩
    · simpa [loadLogLoop, hparse, hitems] using h1
    · rcases hrest : rest.getLast? with _ | rl
      · have hlast : (r :: rest).getLast? = some r := by
          cases rest with
          | nil => rfl
          | cons b l => simp [List.getLast?] at hrest
      
        rw [hlast]
        rw [hrest] at h2
        simpa using h2
      · have hlast : (r :: rest).getLast? = some rl := by
          cases rest with
          | nil => simp [List.getLast?] at hrest
          | cons b l =>
            rw [← hrest]
            exact List.getLast?_cons_cons
        rw [hlast]
        rw [hrest] at h2
        simpa using h2
    · rcases hrest : rest.getLast? with _ | rl
      · have hlast : (r :: rest).getLast? = some r := by
          cases rest with
          | nil => rfl
          | cons b l => simp [List.getLast?] at hrest
        rw [hlast]
        rw [hrest] at h3
        simpa using h3
      · have hlast : (r :: rest).getLast? = some rl := by
          cases rest with
          | nil => simp [List.getLast?] at hrest
          | cons b l =>
            rw [← hrest]
            exact List.getLast?_cons_cons
        rw [hlast]
        rw [hrest] at h3
        simpa using h3
    · rw [List.foldl_cons]
      have : applyRecord mem r = Coord.memApplyBatch mem seq items := by
        simp [applyRecord, hparse]
      rw [this]
      exact h4

/-- Witness for `loadLog_truncates_torn_tail`: two complete one-item batches
ending at offsets 20 and 45, then a torn tail. -/
theorem loadLog_truncates_torn_tail_witness :
    ∃ res, loadLog [] 0
        [⟨some (1, [⟨Coord.Kind.value, 1, 10⟩]), 20⟩,
          ⟨some (2, [⟨Coord.Kind.deletion, 2, 0⟩]), 45⟩]
        Tail.incomplete = .ok res ∧
      res.truncatedAt = some (lastOffset
        [⟨some (1, [⟨Coord.Kind.value, 1, 10⟩]), 20⟩,
          ⟨some (2, [⟨Coord.Kind.deletion, 2, 0⟩]), 45⟩]) ∧
      res.offset = lastOffset
        [⟨some (1, [⟨Coord.Kind.value, 1, 10⟩]), 20⟩,
          ⟨some (2, [⟨Coord.Kind.deletion, 2, 0⟩]), 45⟩] ∧
      res.mem = List.foldl applyRecord []
        [⟨some (1, [⟨Coord.Kind.value, 1, 10⟩]), 20⟩,
          ⟨some (2, [⟨Coord.Kind.deletion, 2, 0⟩]), 45⟩] :=
  loadLog_truncates_torn_tail [] 0
    [⟨some (1, [⟨Coord.Kind.value, 1, 10⟩]), 20⟩,
      ⟨some (2, [⟨Coord.Kind.deletion, 2, 0⟩]), 45⟩]
    (by
      intro r hr
      rcases List.mem_cons.mp hr with rfl | hr
      · exact ⟨1, [⟨Coord.Kind.value, 1, 10⟩], rfl, by decide⟩
      · rcases List.mem_cons.mp hr with rfl | hr
        · exact ⟨2, [⟨Coord.Kind.deletion, 2, 0⟩], rfl, by decide⟩
        · exact absurd hr (List.not_mem_nil r))

end LoadLog

namespace PointGet

open Coord (Kind Entry)

/-- `keys.MaxSequence`: the largest 56-bit sequence number (spec §3). -/
def maxSequence : Nat := 2 ^ 56 - 1

/-- Modelled from the spec (§4.4): the memtable's search for the newest
entry of a user key visible at sequence `s` — the entry with user key `k`,
sequence at most `s`, and maximal sequence among those.  The version's table
stack performs the same search over its records (§4.2, §4.8), so the same
model serves both tiers. -/
def lookup : List Entry → Nat → Nat → Option Entry
  | [], _, _ => none
  | e :: rest, k, s =>
    match lookup rest k s with
    | none => if e.key = k ∧ e.seq ≤ s then some e else none
    | some a =>
      if e.key = k ∧ e.seq ≤ s ∧ a.seq < e.seq then some e else some a

/-- Modelled from the spec (§4.4): `memtable.Get(ikey)` — `none` when the
tier has no entry for the key (ask the next tier), `some none` when the
newest visible entry is a deletion (`NotFound` with `ok=true`), and
`some (some v)` for a value. -/
def memGet (t : List Entry) (k s : Nat) : Option (Option Nat) :=
  match lookup t k s with
  | none => none
  | some e =>
    match e.kind with
    | .value => some (some e.val)
    | .deletion => some none

/-- Modelled from the spec (§4.2, §4.8): `Version.Get(ikey)` — the final
tier returns the newest visible value or `NotFound` (`none`). -/
def verGet (t : List Entry) (k s : Nat) : Option Nat :=
  match lookup t k s with
  | none => none
  | some e =>
    match e.kind with
    | .value => some e.val
    | .deletion => none

/-- The outcome of `DB.get`: `ErrDBClosed`, `ErrNotFound`, or a value. -/
inductive GetResult where
  | closed
  | notFound
  | found (v : Nat)
deriving DecidableEq, Repr

/-- Converting a tier's answer into `DB.get`'s result. -/
def fromMem : Option Nat → GetResult
  | none => .notFound
  | some v => .found v

/-- The lookup loop of `DB.get` (db.go:673-682): the active memtable, then
the immutable memtable when present, each able to answer `NotFound`
definitively, then the retained version. -/
def tiersGet (mem : List Entry) (imm : Option (List Entry)) (ver : List Entry)
    (k s : Nat) : GetResult :=
  match memGet mem k s with
  | some r => fromMem r
  | none =>
    match imm with
    | some t =>
      match memGet t k s with
      | some r => fromMem r
      | none => fromMem (verGet ver k s)
    | none => fromMem (verGet ver k s)

/-- The state read by `DB.get` (db.go:658-667) under the read lock:
`db.closing`, `db.state.LastSequence()`, `db.mem`, `db.imm`, and the
retained current version's records. -/
structure DBView where
  closing : Bool
  lastSeq : Nat
  mem : List Entry
  imm : Option (List Entry)
  ver : List Entry
deriving DecidableEq, Repr

/-- Shallow embedding of `DB.get` (db.go:658-683): refuse when closing,
substitute `lastSequence` for `MaxSequence`, then search the tiers in
order.  `DB.Get` (db.go:654-656) is `dbGet` at `maxSequence`. -/
def dbGet (db : DBView) (k s : Nat) : GetResult :=
  if db.closing then .closed
  else tiersGet db.mem db.imm db.ver k
    (if s = maxSequence then db.lastSeq else s)

/-- All records of the database, newest tier first. -/
def allEntries (db : DBView) : List Entry :=
  db.mem ++ (db.imm.getD [] ++ db.ver)

/-- The most recent write to `k` with sequence at most `s` among `all`. -/
def IsMostRecent (all : List Entry) (k s : Nat) (e : Entry) : Prop :=
  e ∈ all ∧ e.key = k ∧ e.seq ≤ s ∧
    ∀ e' ∈ all, e'.key = k → e'.seq ≤ s → e'.seq ≤ e.seq

theorem lookup_none_no_candidate (k s : Nat) :
    ∀ (t : List Entry), lookup t k s = none →
      ∀ e ∈ t, ¬(e.key = k ∧ e.seq ≤ s) := by
  intro t
  induction t with
  | nil => intro _ e he; simp at he
  | cons a rest ih =>
    intro h e he
    cases hl : lookup rest k s with
    | none =>
      simp only [lookup, hl] at h
      rcases List.mem_cons.mp he with rfl | he
      · intro hc
        rw [if_pos hc] at h
        exact absurd h (by simp)
      · exact ih hl e he
    | some b =>
      simp only [lookup, hl] at h
      by_cases hc : a.key = k ∧ a.seq ≤ s ∧ b.seq < a.seq
      · rw [if_pos hc] at h; exact absurd h (by simp)
      · rw [if_neg hc] at h; exact absurd h (by simp)

theorem lookup_none_of_no_candidate (k s : Nat) :
    ∀ (t : List Entry), (∀ e ∈ t, ¬(e.key = k ∧ e.seq ≤ s)) →
      lookup t k s = none := by
  intro t
  induction t with
  | nil => intro _; rfl
  | cons a rest ih =>
    intro h
    have hrest : lookup rest k s = none :=
      ih (fun e he => h e (List.mem_cons_of_mem _ he))
    simp only [lookup, hrest]
    rw [if_neg (h a (List.mem_cons_self _ _))]

theorem lookup_some_spec (k s : Nat) :
    ∀ (t : List Entry) (e : Entry), lookup t k s = some e →
      e ∈ t ∧ e.key = k ∧ e.seq ≤ s ∧
        ∀ e' ∈ t, e'.key = k → e'.seq ≤ s → e'.seq ≤ e.seq := by
  intro t
  induction t with
  | nil => intro e h; simp [lookup] at h
  | cons a rest ih =>
    intro e h
    cases hl : lookup rest k s with
    | none =>
      simp only [lookup, hl] at h
      by_cases hc : a.key = k ∧ a.seq ≤ s
      · rw [if_pos hc] at h
        injection h with h
        subst h
        refine ⟨List.mem_cons_self _ _, hc.1, hc.2, ?_⟩
        intro e' he' hk' hs'
        rcases List.mem_cons.mp he' with rfl | he'
        · exact le_refl _
        · exact absurd ⟨hk', hs'⟩ (lookup_none_no_candidate k s rest hl e' he')
      · rw [if_neg hc] at h
        exact absurd h (by simp)
    | some b =>
      simp only [lookup, hl] at h
      obtain ⟨hb1, hb2, hb3, hb4⟩ := ih b hl
      by_cases hc : a.key = k ∧ a.seq ≤ s ∧ b.seq < a.seq
      · rw [if_pos hc] at h
        injection h with h
        subst h
        refine ⟨List.mem_cons_self _ _, hc.1, hc.2.1, ?_⟩
        intro e' he' hk' hs'
        rcases List.mem_cons.mp he' with rfl | he'
        · exact le_refl _
        · exact le_trans (hb4 e' he' hk' hs') (le_of_lt hc.2.2)
      · rw [if_neg hc] at h
        injection h with h
        subst h
        refine ⟨List.mem_cons_of_mem _ hb1, hb2, hb3, ?_⟩
        intro e' he' hk' hs'
        rcases List.mem_cons.mp he' with rfl | he'
        · rcases Nat.lt_or_ge b.seq e'.seq with hlt | hge
          · exact absurd ⟨hk', hs', hlt⟩ hc
          · exact hge
        · exact hb4 e' he' hk' hs'

theorem lookup_finds_max (k s : Nat) (t : List Entry) (e : Entry)
    (he : e ∈ t) (hk : e.key = k) (hs : e.seq ≤ s)
    (hmax : ∀ e' ∈ t, e'.key = k → e'.seq ≤ s → e'.seq ≤ e.seq)
    (hdup : ∀ e' ∈ t, e'.key = e.key → e'.seq = e.seq → e' = e) :
    lookup t k s = some e := by
  cases hl : lookup t k s with
  | none => exact absurd ⟨hk, hs⟩ (lookup_none_no_candidate k s t hl e he)
  | some a =>
    obtain ⟨ha1, ha2, ha3, ha4⟩ := lookup_some_spec k s t a hl
    have h1 : a.seq ≤ e.seq := hmax a ha1 ha2 ha3
    have h2 : e.seq ≤ a.seq := ha4 e he hk hs
    rw [hdup a ha1 (ha2.trans hk.symm) (by omega)]

end PointGet

namespace PointGet

open Coord (Kind Entry)

theorem tiersGet_most_recent (mem : List Entry) (imm : Option (List Entry))
    (ver : List Entry) (k s : Nat)
    (htierMem : ∀ e ∈ mem, ∀ e' ∈ imm.getD [] ++ ver,
      e'.key = e.key → e'.seq < e.seq)
    (htierImm : ∀ e ∈ imm.getD [], ∀ e' ∈ ver,
      e'.key = e.key → e'.seq < e.seq)
    (hdup : ∀ e ∈ mem ++ (imm.getD [] ++ ver),
      ∀ e' ∈ mem ++ (imm.getD [] ++ ver),
      e.key = e'.key → e.seq = e'.seq → e = e') :
    ((∀ e ∈ mem ++ (imm.getD [] ++ ver), e.key = k → s < e.seq) →
      tiersGet mem imm ver k s = GetResult.notFound) ∧
    (∀ e, IsMostRecent (mem ++ (imm.getD [] ++ ver)) k s e →
      tiersGet mem imm ver k s = (match e.kind with
        | Kind.value => GetResult.found e.val
        | Kind.deletion => GetResult.notFound)) := by
  constructor
  · intro hno
    have hm : lookup mem k s = none := by
      refine lookup_none_of_no_candidate k s mem (fun e he hc => ?_)
      have := hno e (List.mem_append_left _ he) hc.1
      omega
    have hi : lookup (imm.getD []) k s = none := by
      refine lookup_none_of_no_candidate k s _ (fun e he hc => ?_)
      have := hno e (List.mem_append_right _ (List.mem_append_left _ he)) hc.1
      omega
    have hv : lookup ver k s = none := by
      refine lookup_none_of_no_candidate k s ver (fun e he hc => ?_)
      have := hno e (List.mem_append_right _ (List.mem_append_right _ he)) hc.1
      omega
    cases him : imm with
    | none =>
      simp only [tiersGet, memGet, hm, verGet, hv, fromMem]
    | some t =>
      have hit : lookup t k s = none := by rw [him] at hi; exact hi
      simp only [tiersGet, memGet, hm, hit, verGet, hv, fromMem]
  · intro e hmr
    obtain ⟨heAll, hek, hes, hemax⟩ := hmr
    rcases List.mem_append.mp heAll with hm | hiv
    · -- newest visible entry lives in the active memtable
      have hlm : lookup mem k s = some e := by
        refine lookup_finds_max k s mem e hm hek hes
          (fun e' he' hk' hs' => hemax e' (List.mem_append_left _ he') hk' hs')
          (fun e' he' hk' hs' =>
            hdup e' (List.mem_append_left _ he') e heAll hk' hs')
      cases hkind : e.kind with
      | value => simp only [tiersGet, memGet, hlm, hkind, fromMem]
      | deletion => simp only [tiersGet, memGet, hlm, hkind, fromMem]
    · rcases List.mem_append.mp hiv with hi | hv
      · -- newest visible entry lives in the immutable memtable
        have hmnone : lookup mem k s = none := by
          refine lookup_none_of_no_candidate k s mem (fun a ha hc => ?_)
          have h1 := htierMem a ha e (List.mem_append_left _ hi)
            (hek.trans hc.1.symm)
          have h2 := hemax a (List.mem_append_left _ ha) hc.1 hc.2
          omega
        cases him : imm with
        | none =>
          rw [him] at hi
          simp at hi
        | some t =>
          rw [him] at hi
          have hlt : lookup t k s = some e := by
            refine lookup_finds_max k s t e hi hek hes
              (fun e' he' hk' hs' => hemax e'
                (List.mem_append_right _ (List.mem_append_left _
                  (by rw [him]; exact he'))) hk' hs')
              (fun e' he' hk' hs' => hdup e'
                (List.mem_append_right _ (List.mem_append_left _
                  (by rw [him]; exact he'))) e heAll hk' hs')
          cases hkind : e.kind with
          | value => simp only [tiersGet, memGet, hmnone, hlt, hkind, fromMem]
          | deletion => simp only [tiersGet, memGet, hmnone, hlt, hkind, fromMem]
      · -- newest visible entry lives in the retained version
        have hmnone : lookup mem k s = none := by
          refine lookup_none_of_no_candidate k s mem (fun a ha hc => ?_)
          have h1 := htierMem a ha e (List.mem_append_right _ hv)
            (hek.trans hc.1.symm)
          have h2 := hemax a (List.mem_append_left _ ha) hc.1 hc.2
          omega
        have hinone : lookup (imm.getD []) k s = none := by
          refine lookup_none_of_no_candidate k s _ (fun a ha hc => ?_)
          have h1 := htierImm a ha e hv (hek.trans hc.1.symm)
          have h2 := hemax a
            (List.mem_append_right _ (List.mem_append_left _ ha)) hc.1 hc.2
          omega
        have hlv : lookup ver k s = some e := by
          refine lookup_finds_max k s ver e hv hek hes
            (fun e' he' hk' hs' => hemax e'
              (List.mem_append_right _ (List.mem_append_right _ he')) hk' hs')
            (fun e' he' hk' hs' => hdup e'
              (List.mem_append_right _ (List.mem_append_right _ he')) e heAll
              hk' hs')
        cases him : imm with
        | none =>
          cases hkind : e.kind with
          | value => simp only [tiersGet, memGet, hmnone, verGet, hlv, hkind,
              fromMem]
          | deletion => simp only [tiersGet, memGet, hmnone, verGet, hlv,
              hkind, fromMem]
        | some t =>
          have hit : lookup t k s = none := by rw [him] at hinone; exact hinone
          cases hkind : e.kind with
          | value => simp only [tiersGet, memGet, hmnone, hit, verGet, hlv,
              hkind, fromMem]
          | deletion => simp only [tiersGet, memGet, hmnone, hit, verGet, hlv,
              hkind, fromMem]

/-- Claim C1: with the database not closing and the tiers respecting their
freshness invariant (every memtable record of a user key is newer than any
immutable-memtable or version record of that key, and every
immutable-memtable record is newer than any version record of that key;
per-key sequences are unique), `DB.get(K, S)` (db.go:654-683) returns the
value of the most recent write to `K` with sequence at most `S'`, or
`NotFound` when that write is a deletion or when no write to `K` with
sequence at most `S'` exists — where `S'` is `S`, except that
`S = MaxSequence` (as passed by `DB.Get`) is replaced by the current
`last_sequence`.  The tiers are consulted in the order: active memtable,
immutable memtable, retained current version. -/
theorem dbGet_most_recent (db : DBView) (k s : Nat)
    (hclosing : db.closing = false)
    (htierMem : ∀ e ∈ db.mem, ∀ e' ∈ db.imm.getD [] ++ db.ver,
      e'.key = e.key → e'.seq < e.seq)
    (htierImm : ∀ e ∈ db.imm.getD [], ∀ e' ∈ db.ver,
      e'.key = e.key → e'.seq < e.seq)
    (hdup : ∀ e ∈ allEntries db, ∀ e' ∈ allEntries db,
      e.key = e'.key → e.seq = e'.seq → e = e') :
    ((∀ e ∈ allEntries db, e.key = k →
        (if s = maxSequence then db.lastSeq else s) < e.seq) →
      dbGet db k s = GetResult.notFound) ∧
    (∀ e, IsMostRecent (allEntries db) k
        (if s = maxSequence then db.lastSeq else s) e →
      dbGet db k s = (match e.kind with
        | Kind.value => GetResult.found e.val
        | Kind.deletion => GetResult.notFound)) := by
  have hd : dbGet db k s = tiersGet db.mem db.imm db.ver k
      (if s = maxSequence then db.lastSeq else s) := by
    simp [dbGet, hclosing]
  rw [hd]
  exact tiersGet_most_recent db.mem db.imm db.ver k
    (if s = maxSequence then db.lastSeq else s) htierMem htierImm hdup

end PointGet

namespace PointGet

open Coord (Kind Entry)

/-- A concrete database view: key 1 written at sequence 1 (value 10, in the
version), deleted at sequence 3 (in the immutable memtable), rewritten at
sequence 5 with value 50 (in the active memtable); key 2 written at
sequence 2. -/
def dbW : DBView :=
  { closing := false, lastSeq := 5,
    mem := [⟨1, 5, Kind.value, 50⟩],
    imm := some [⟨1, 3, Kind.deletion, 0⟩],
    ver := [⟨1, 1, Kind.value, 10⟩, ⟨2, 2, Kind.value, 20⟩] }

/-- Witness for `dbGet_most_recent`: on `dbW`, `Get(1)` at `MaxSequence`
returns the sequence-5 value 50. -/
theorem dbGet_most_recent_witness :
    dbGet dbW 1 maxSequence = GetResult.found 50 :=
  (dbGet_most_recent dbW 1 maxSequence rfl (by decide) (by decide)
      (by decide)).2 ⟨1, 5, Kind.value, 50⟩ (by unfold IsMostRecent; decide)

end PointGet

namespace TableWriter

/-- The fields of `table.Writer` (internal/table/writer.go:16-35) that drive
the pending-index mechanism: `lastKey` (the last added key, `none` before
the first `Add`), `pendingDataIndex` (modelled by the ordinal of the flushed
block it refers to; `none` when `Length == 0`), the flushed data blocks with
their entries, the in-progress data block, and the data-index block's
entries `(separator key, handle)`.  Keys and values are byte strings under
the user comparator, modelled as `Nat`; a handle is modelled by the ordinal
of its block.  The model is pure: the I/O error path (`w.err`) never
fires. -/
structure WState where
  lastKey : Option Nat
  pending : Option Nat
  blocks : List (List (Nat × Nat))
  curBlock : List (Nat × Nat)
  indexEntries : List (Nat × Nat)
deriving DecidableEq, Repr

/-- `Writer.Reset` leaves this state (writer.go:37-54). -/
def empty : WState := ⟨none, none, [], [], []⟩

/-- `Writer.flushPendingDataIndex(limit)` (writer.go:81-88): when an index
entry is pending, emit it with key `AppendSuccessor(lastKey, limit)` —
`appSucc` is the comparator's `AppendSuccessor`, a parameter of the model —
and clear the pending handle. -/
def flushPendingDataIndex (appSucc : Nat → Option Nat → Nat) (w : WState)
    (limit : Option Nat) : WState :=
  match w.pending with
  | none => w
  | some h =>
    { w with
      indexEntries :=
        w.indexEntries ++ [(appSucc (w.lastKey.getD 0) limit, h)],
      pending := none }

/-- `Writer.flushDataBlock` (writer.go:143-149): an empty block is not
flushed; otherwise the block is written out (`writeBlock`) and its handle is
held in `pendingDataIndex` — no index entry is emitted here. -/
def flushDataBlock (w : WState) : WState :=
  if w.curBlock.isEmpty then w
  else
    { w with
      blocks := w.blocks ++ [w.curBlock],
      curBlock := [],
      pending := some w.blocks.length }

/-- `Writer.Add(key, value)` (writer.go:60-75): materialize any pending
index entry with the new key as limit, record the key as `lastKey`, append
the pair to the data block, and flush the data block when it reached the
block size — `blockFull` stands for
`dataBlock.ApproximateSize() >= opts.BlockSize` (the block codec is not
among the given sources). -/
def add (appSucc : Nat → Option Nat → Nat)
    (blockFull : List (Nat × Nat) → Bool) (w : WState) (key val : Nat) :
    WState :=
  let w1 := flushPendingDataIndex appSucc w (some key)
  let w2 := { w1 with
    lastKey := some key, curBlock := w1.curBlock ++ [(key, val)] }
  if blockFull w2.curBlock then flushDataBlock w2 else w2

/-- `Writer.Finish` (writer.go:96-128): flush the in-progress data block,
write the meta-index block (which does not touch the data index), then
materialize the pending index entry with `nil` limit and write the
data-index block and footer. -/
def finish (appSucc : Nat → Option Nat → Nat) (w : WState) : WState :=
  flushPendingDataIndex appSucc (flushDataBlock w) none

/-- A run of the writer: `Add` for each pair, then `Finish`. -/
def runWriter (appSucc : Nat → Option Nat → Nat)
    (blockFull : List (Nat × Nat) → Bool) (kvs : List (Nat × Nat)) : WState :=
  finish appSucc (kvs.foldl (fun w kv => add appSucc blockFull w kv.1 kv.2) empty)

/-- The first key of a block. -/
def firstKeyOf (b : List (Nat × Nat)) : Nat := ((b.head?).map Prod.fst).getD 0

/-- The last key of a block. -/
def lastKeyOf (b : List (Nat × Nat)) : Nat := ((b.getLast?).map Prod.fst).getD 0

/-- The data blocks a run will have produced once the in-progress block is
flushed. -/
def blocksAll (w : WState) : List (List (Nat × Nat)) :=
  if w.curBlock.isEmpty then w.blocks else w.blocks ++ [w.curBlock]

/-- The invariant of the writer state between `Add` calls:
pending handle only right after a flush, with an empty in-progress block;
one index entry per block except the pending one; each materialized entry
`j` separates block `j` from block `j+1`; `lastKey` is the last key of the
last block; consecutive blocks have increasing keys. -/
def Inv (appSucc : Nat → Option Nat → Nat) (w : WState) : Prop :=
  (∀ h, w.pending = some h →
    w.curBlock = [] ∧ w.blocks.length = h + 1 ∧ w.indexEntries.length = h) ∧
  (w.pending = none → w.indexEntries.length = w.blocks.length) ∧
  (∀ j, j < w.indexEntries.length →
    j + 1 < (blocksAll w).length ∧
    w.indexEntries.getD j (0, 0) =
      (appSucc (lastKeyOf ((blocksAll w).getD j []))
        (some (firstKeyOf ((blocksAll w).getD (j + 1) []))), j)) ∧
  (blocksAll w = [] → w.lastKey = none ∧ w.pending = none ∧
    w.indexEntries = []) ∧
  (blocksAll w ≠ [] →
    w.lastKey = some (lastKeyOf ((blocksAll w).getLast?.getD []))) ∧
  List.Chain' (fun b b' => lastKeyOf b < firstKeyOf b') (blocksAll w) ∧
  (∀ b ∈ blocksAll w, b ≠ [])

theorem inv_empty (appSucc : Nat → Option Nat → Nat) : Inv appSucc empty := by
  refine ⟨?_, ?_, ?_, ?_, ?_, ?_, ?_⟩ <;>
    simp [empty, blocksAll]

end TableWriter

namespace TableWriter

theorem lastKeyOf_concat (b : List (Nat × Nat)) (k v : Nat) :
    lastKeyOf (b ++ [(k, v)]) = k := by
  simp [lastKeyOf]

theorem firstKeyOf_concat_ne (b : List (Nat × Nat)) (k v : Nat)
    (hb : b ≠ []) : firstKeyOf (b ++ [(k, v)]) = firstKeyOf b := by
  cases b with
  | nil => exact absurd rfl hb
  | cons a l => simp [firstKeyOf]

theorem getLast_getD_eq_getD (l : List (List (Nat × Nat))) :
    l.getLast?.getD [] = l.getD (l.length - 1) [] := by
  rw [List.getLast?_eq_getElem?, List.getD_eq_getD_get?, List.get?_eq_getElem?]

theorem invC_transfer (appSucc : Nat → Option Nat → Nat)
    (entries : List (Nat × Nat)) (bs bs' : List (List (Nat × Nat)))
    (hlen : bs.length ≤ bs'.length)
    (hlast : ∀ j, j + 1 < bs.length →
      lastKeyOf (bs'.getD j []) = lastKeyOf (bs.getD j []))
    (hfirst : ∀ j, j < bs.length → 0 < j →
      firstKeyOf (bs'.getD j []) = firstKeyOf (bs.getD j []))
    (hC : ∀ j, j < entries.length → j + 1 < bs.length ∧
      entries.getD j (0, 0) =
        (appSucc (lastKeyOf (bs.getD j []))
          (some (firstKeyOf (bs.getD (j + 1) []))), j)) :
    ∀ j, j < entries.length → j + 1 < bs'.length ∧
      entries.getD j (0, 0) =
        (appSucc (lastKeyOf (bs'.getD j []))
          (some (firstKeyOf (bs'.getD (j + 1) []))), j) := by
  intro j hj
  obtain ⟨hb, he⟩ := hC j hj
  refine ⟨by omega, ?_⟩
  rw [he, hlast j hb, hfirst (j + 1) hb (by omega)]

theorem flushDataBlock_of_ne (w : WState) (h : ¬ w.curBlock = []) :
    flushDataBlock w =
      { w with
        blocks := w.blocks ++ [w.curBlock]
        curBlock := []
        pending := some w.blocks.length } := by
  have hne : w.curBlock.isEmpty = false := by
    cases hc : w.curBlock with
    | nil => exact absurd hc h
    | cons a l => rfl
  simp [flushDataBlock, hne]

theorem flushDataBlock_of_empty (w : WState) (h : w.curBlock = []) :
    flushDataBlock w = w := by
  simp [flushDataBlock, h]

theorem inv_flushDataBlock (appSucc : Nat → Option Nat → Nat) (w : WState)
    (hInv : Inv appSucc w) :
    Inv appSucc (flushDataBlock w) ∧
    blocksAll (flushDataBlock w) = blocksAll w ∧
    (flushDataBlock w).lastKey = w.lastKey ∧
    (flushDataBlock w).indexEntries = w.indexEntries := by
  by_cases hc : w.curBlock = []
  · rw [flushDataBlock_of_empty w hc]
    exact ⟨hInv, rfl, rfl, rfl⟩
  · obtain ⟨iA, iB, iC, iE0, iE1, iF, iG⟩ := hInv
    have hp : w.pending = none := by
      cases hp : w.pending with
      | none => rfl
      | some h => exact absurd (iA h hp).1 hc
    rw [flushDataBlock_of_ne w hc]
    have hbsOld : blocksAll w = w.blocks ++ [w.curBlock] := by
      have hne : w.curBlock.isEmpty = false := by
        cases hcc : w.curBlock with
        | nil => exact absurd hcc hc
        | cons a l => rfl
      simp [blocksAll, hne]
    have hbs : blocksAll
        { w with
          blocks := w.blocks ++ [w.curBlock]
          curBlock := []
          pending := some w.blocks.length } = blocksAll w := by
      simp [blocksAll, hbsOld, hc]
    refine ⟨⟨?_, ?_, ?_, ?_, ?_, ?_, ?_⟩, hbs, rfl, rfl⟩
    · intro h hh
      simp only [Option.some.injEq] at hh
      subst hh
      exact ⟨rfl, by simp, by rw [iB hp]⟩
    · intro hcon
      simp at hcon
    · intro j hj
      rw [hbs]
      exact iC j hj
    · intro hcon
      rw [hbs] at hcon
      rw [hbsOld] at hcon
      simp at hcon
    · intro hne
      rw [hbs]
      exact iE1 (by rw [← hbs] at *; exact hne)
    · rw [hbs]; exact iF
    · rw [hbs]; exact iG

end TableWriter

namespace TableWriter

/-- The state reached inside `Writer.Add` after materializing the pending
index entry and appending the new pair, before the block-size check (a proof
artifact; `add` is this followed by the conditional flush). -/
def addCore (appSucc : Nat → Option Nat → Nat) (w : WState) (key val : Nat) :
    WState :=
  let w1 := flushPendingDataIndex appSucc w (some key)
  { w1 with lastKey := some key, curBlock := w1.curBlock ++ [(key, val)] }

theorem add_eq (appSucc : Nat → Option Nat → Nat)
    (blockFull : List (Nat × Nat) → Bool) (w : WState) (key val : Nat) :
    add appSucc blockFull w key val =
      if blockFull (addCore appSucc w key val).curBlock then
        flushDataBlock (addCore appSucc w key val)
      else addCore appSucc w key val := rfl

theorem inv_addCore (appSucc : Nat → Option Nat → Nat) (w : WState)
    (key val : Nat) (hInv : Inv appSucc w)
    (hk : ∀ l, w.lastKey = some l → l < key) :
    Inv appSucc (addCore appSucc w key val) ∧
    (addCore appSucc w key val).lastKey = some key := by
  obtain ⟨iA, iB, iC, iE0, iE1, iF, iG⟩ := hInv
  cases hp : w.pending with
  | none =>
    have hv : addCore appSucc w key val =
        { w with lastKey := some key, curBlock := w.curBlock ++ [(key, val)] } := by
      simp [addCore, flushPendingDataIndex, hp]
    rw [hv]
    by_cases hc : w.curBlock = []
    · -- the new key opens a fresh block
      have hbsw : blocksAll w = w.blocks := by simp [blocksAll, hc]
      have hbsv : blocksAll
          { w with lastKey := some key, curBlock := w.curBlock ++ [(key, val)] } =
          w.blocks ++ [[(key, val)]] := by
        simp [blocksAll, hc]
      refine ⟨⟨?_, ?_, ?_, ?_, ?_, ?_, ?_⟩, rfl⟩
      · intro h hh
        simp [hp] at hh
      · intro _
        exact iB hp
      · intro j hj
        rw [hbsv]
        refine invC_transfer appSucc w.indexEntries (blocksAll w) _ ?_ ?_ ?_ iC j hj
        · rw [hbsw]
          simp
        · intro j hjb
          rw [hbsw] at hjb ⊢
          rw [List.getD_append _ _ _ _ (by omega)]
        · intro j hjb _
          rw [hbsw] at hjb ⊢
          rw [List.getD_append _ _ _ _ (by omega)]
      · intro hcon
        rw [hbsv] at hcon
        simp at hcon
      · intro _
        rw [hbsv]
        rw [List.getLast?_concat]
        simp [lastKeyOf]
      · rw [hbsv]
        rw [List.chain'_append]
        refine ⟨by rw [← hbsw]; exact iF, by simp, ?_⟩
        intro x hx y hy
        simp only [List.head?_cons, Option.mem_def, Option.some.injEq] at hy
        subst hy
        have hbne : blocksAll w ≠ [] := by
          rw [hbsw]
          intro hnil
          rw [hnil] at hx
          simp at hx
        have hlk := iE1 hbne
        have hxeq : x = (blocksAll w).getLast?.getD [] := by
          rw [hbsw]
          rw [Option.mem_def] at hx
          rw [hx]
          rfl
        have := hk (lastKeyOf ((blocksAll w).getLast?.getD [])) hlk
        rw [hxeq]
        simpa [firstKeyOf] using this
      · intro b hb
        rw [hbsv] at hb
        rcases List.mem_append.mp hb with hb | hb
        · exact iG b (by rw [hbsw]; exact hb)
        · simp only [List.mem_singleton] at hb
          subst hb
          simp
    · -- the new key extends the in-progress block
      have hbsw : blocksAll w = w.blocks ++ [w.curBlock] := by
        have hne : w.curBlock.isEmpty = false := by
          cases hcc : w.curBlock with
          | nil => exact absurd hcc hc
          | cons a l => rfl
        simp [blocksAll, hne]
      have hbsv : blocksAll
          { w with lastKey := some key, curBlock := w.curBlock ++ [(key, val)] } =
          w.blocks ++ [w.curBlock ++ [(key, val)]] := by
        simp [blocksAll, hc]
      refine ⟨⟨?_, ?_, ?_, ?_, ?_, ?_, ?_⟩, rfl⟩
      · intro h hh
        simp [hp] at hh
      · intro _
        exact iB hp
      · intro j hj
        rw [hbsv]
        refine invC_transfer appSucc w.indexEntries (blocksAll w) _ ?_ ?_ ?_ iC j hj
        · rw [hbsw]
          simp
        · intro j hjb
          rw [hbsw] at hjb ⊢
          rw [List.length_append, List.length_singleton] at hjb
          rw [List.getD_append _ _ _ _ (by omega),
            List.getD_append _ _ _ _ (by omega)]
        · intro j hjb hj0
          rw [hbsw] at hjb ⊢
          rw [List.length_append, List.length_singleton] at hjb
          by_cases hjlt : j < w.blocks.length
          · rw [List.getD_append _ _ _ _ hjlt, List.getD_append _ _ _ _ hjlt]
          · have hje : j = w.blocks.length := by omega
            subst hje
            rw [List.getD_append_right _ _ _ _ (le_refl _),
              List.getD_append_right _ _ _ _ (le_refl _)]
            simp only [Nat.sub_self, List.getD]
            exact firstKeyOf_concat_ne w.curBlock key val hc
      · intro hcon
        rw [hbsv] at hcon
        simp at hcon
      · intro _
        rw [hbsv]
        rw [List.getLast?_concat]
        simp [lastKeyOf]
      · rw [hbsv]
        rw [List.chain'_append]
        have hFold := iF
        rw [hbsw] at hFold
        rw [List.chain'_append] at hFold
        obtain ⟨hF1, _, hF3⟩ := hFold
        refine ⟨hF1, by simp, ?_⟩
        intro x hx y hy
        simp only [List.head?_cons, Option.mem_def, Option.some.injEq] at hy
        subst hy
        have := hF3 x hx w.curBlock (by simp)
        rwa [firstKeyOf_concat_ne w.curBlock key val hc]
      · intro b hb
        rw [hbsv] at hb
        rcases List.mem_append.mp hb with hb | hb
        · exact iG b (by rw [hbsw]; exact List.mem_append_left _ hb)
        · simp only [List.mem_singleton] at hb
          subst hb
          simp
  | some h =>
    obtain ⟨hcb, hbl, hml⟩ := iA h hp
    have hbsw : blocksAll w = w.blocks := by simp [blocksAll, hcb]
    have hbne : blocksAll w ≠ [] := by
      rw [hbsw]
      intro hnil
      rw [hnil] at hbl
      simp at hbl
    have hlk := iE1 hbne
    have hlkD : w.lastKey.getD 0 = lastKeyOf (w.blocks.getD h []) := by
      rw [hlk]
      have : (blocksAll w).getLast?.getD [] = w.blocks.getD h [] := by
        rw [hbsw, getLast_getD_eq_getD, hbl]
        rfl
      rw [this]
      rfl
    have hv : addCore appSucc w key val =
        { w with
          lastKey := some key
          pending := none
          curBlock := [(key, val)]
          indexEntries := w.indexEntries ++ [(appSucc (w.lastKey.getD 0) (some key), h)] } := by
      simp [addCore, flushPendingDataIndex, hp, hcb]
    rw [hv]
    have hbsv : blocksAll
        { w with
          lastKey := some key
          pending := none
          curBlock := [(key, val)]
          indexEntries := w.indexEntries ++ [(appSucc (w.lastKey.getD 0) (some key), h)] } =
        w.blocks ++ [[(key, val)]] := by
      simp [blocksAll]
    refine ⟨⟨?_, ?_, ?_, ?_, ?_, ?_, ?_⟩, rfl⟩
    · intro h' hh
      exact absurd hh (by simp)
    · intro _
      rw [List.length_append, List.length_singleton, hml, hbl]
    · intro j hj
      rw [List.length_append, List.length_singleton, hml] at hj
      rw [hbsv]
      by_cases hjh : j < h
      · have hold := invC_transfer appSucc w.indexEntries (blocksAll w)
          (w.blocks ++ [[(key, val)]])
          (by rw [hbsw]; simp)
          (fun j hjb => by
            rw [hbsw] at hjb ⊢
            rw [List.getD_append _ _ _ _ (by omega)])
          (fun j hjb _ => by
            rw [hbsw] at hjb ⊢
            rw [List.getD_append _ _ _ _ (by omega)])
          iC j (by omega)
        rw [List.getD_append _ _ _ _ (by omega)]
        exact hold
      · have hje : j = h := by omega
        subst hje
        refine ⟨by rw [List.length_append, List.length_singleton]; omega, ?_⟩
        rw [List.getD_append_right _ _ _ _ (by omega), hml, Nat.sub_self]
        rw [List.getD_append _ _ _ _ (by omega)]
        rw [List.getD_append_right _ _ _ _ (by rw [hbl])]
        rw [hbl, Nat.sub_self]
        simp only [List.getD]
        rw [hlkD]
        rfl
    · intro hcon
      rw [hbsv] at hcon
      simp at hcon
    · intro _
      rw [hbsv, List.getLast?_concat]
      simp [lastKeyOf]
    · rw [hbsv]
      rw [List.chain'_append]
      refine ⟨by rw [← hbsw]; exact iF, by simp, ?_⟩
      intro x hx y hy
      simp only [List.head?_cons, Option.mem_def, Option.some.injEq] at hy
      subst hy
      have hxeq : x = (blocksAll w).getLast?.getD [] := by
        rw [hbsw]
        rw [Option.mem_def] at hx
        rw [hx]
        rfl
      have := hk (lastKeyOf ((blocksAll w).getLast?.getD [])) hlk
      rw [hxeq]
      simpa [firstKeyOf] using this
    · intro b hb
      rw [hbsv] at hb
      rcases List.mem_append.mp hb with hb | hb
      · exact iG b (by rw [hbsw]; exact hb)
      · simp only [List.mem_singleton] at hb
        subst hb
        simp

theorem inv_add (appSucc : Nat → Option Nat → Nat)
    (blockFull : List (Nat × Nat) → Bool) (w : WState) (key val : Nat)
    (hInv : Inv appSucc w) (hk : ∀ l, w.lastKey = some l → l < key) :
    Inv appSucc (add appSucc blockFull w key val) ∧
    (add appSucc blockFull w key val).lastKey = some key := by
  obtain ⟨h1, h2⟩ := inv_addCore appSucc w key val hInv hk
  rw [add_eq]
  by_cases hbf : blockFull (addCore appSucc w key val).curBlock
  · rw [if_pos hbf]
    obtain ⟨hi, _, hl, _⟩ := inv_flushDataBlock appSucc _ h1
    exact ⟨hi, by rw [hl]; exact h2⟩
  · rw [if_neg hbf]
    exact ⟨h1, h2⟩

end TableWriter

namespace TableWriter

theorem inv_foldl (appSucc : Nat → Option Nat → Nat)
    (blockFull : List (Nat × Nat) → Bool) :
    ∀ (kvs : List (Nat × Nat)) (w : WState),
      Inv appSucc w →
      (∀ l, w.lastKey = some l → ∀ kv ∈ kvs, l < kv.1) →
      List.Pairwise (fun a b : Nat × Nat => a.1 < b.1) kvs →
      Inv appSucc
        (kvs.foldl (fun w kv => add appSucc blockFull w kv.1 kv.2) w) := by
  intro kvs
  induction kvs with
  | nil =>
    intro w hInv _ _
    exact hInv
  | cons kv rest ih =>
    intro w hInv hlast hsorted
    rw [List.foldl_cons]
    obtain ⟨hI, hL⟩ := inv_add appSucc blockFull w kv.1 kv.2 hInv
      (fun l hl => hlast l hl kv (List.mem_cons_self _ _))
    refine ih _ hI ?_ (List.Pairwise.of_cons hsorted)
    intro l hl kv' hkv'
    rw [hL] at hl
    injection hl with hl
    subst hl
    exact (List.pairwise_cons.mp hsorted).1 kv' hkv'

theorem finish_spec (appSucc : Nat → Option Nat → Nat) (w : WState)
    (hInv : Inv appSucc w) :
    (finish appSucc w).curBlock = [] ∧
    (finish appSucc w).pending = none ∧
    (finish appSucc w).blocks = blocksAll w ∧
    (finish appSucc w).indexEntries.length =
      (finish appSucc w).blocks.length ∧
    (∀ j, j + 1 < (finish appSucc w).blocks.length →
      (finish appSucc w).indexEntries.getD j (0, 0) =
        (appSucc (lastKeyOf ((finish appSucc w).blocks.getD j []))
          (some (firstKeyOf ((finish appSucc w).blocks.getD (j + 1) []))),
          j)) ∧
    (0 < (finish appSucc w).blocks.length →
      (finish appSucc w).indexEntries.getD
          ((finish appSucc w).blocks.length - 1) (0, 0) =
        (appSucc (lastKeyOf ((finish appSucc w).blocks.getD
            ((finish appSucc w).blocks.length - 1) [])) none,
          (finish appSucc w).blocks.length - 1)) ∧
    List.Chain' (fun b b' => lastKeyOf b < firstKeyOf b')
      (finish appSucc w).blocks := by
  obtain ⟨hI', hbs', hlk', hie'⟩ := inv_flushDataBlock appSucc w hInv
  obtain ⟨iA, iB, iC, iE0, iE1, iF, iG⟩ := hI'
  have hcb' : (flushDataBlock w).curBlock = [] := by
    by_cases hc : w.curBlock = []
    · rw [flushDataBlock_of_empty w hc]
      exact hc
    · rw [flushDataBlock_of_ne w hc]
  have hbseq : blocksAll (flushDataBlock w) = (flushDataBlock w).blocks := by
    simp [blocksAll, hcb']
  have hblocks : (flushDataBlock w).blocks = blocksAll w := by
    rw [← hbseq, hbs']
  cases hp : (flushDataBlock w).pending with
  | some h =>
    obtain ⟨_, hbl, hml⟩ := iA h hp
    have hbne : blocksAll (flushDataBlock w) ≠ [] := by
      rw [hbseq]
      intro hnil
      rw [hnil] at hbl
      simp at hbl
    have hlk := iE1 hbne
    have hlkD : (flushDataBlock w).lastKey.getD 0 =
        lastKeyOf ((flushDataBlock w).blocks.getD h []) := by
      rw [hlk]
      have heq : (blocksAll (flushDataBlock w)).getLast?.getD [] =
          (flushDataBlock w).blocks.getD h [] := by
        rw [hbseq, getLast_getD_eq_getD, hbl]
        rfl
      rw [heq]
      rfl
    have hF : finish appSucc w =
        { flushDataBlock w with
          pending := none
          indexEntries := (flushDataBlock w).indexEntries ++
            [(appSucc ((flushDataBlock w).lastKey.getD 0) none, h)] } := by
      simp [finish, flushPendingDataIndex, hp]
    rw [hF]
    refine ⟨hcb', rfl, hblocks, ?_, ?_, ?_, ?_⟩
    · simp only [List.length_append, List.length_singleton, hml]
      omega
    · intro j hj
      simp only at hj ⊢
      rw [hbl] at hj
      rw [List.getD_append _ _ _ _ (by omega)]
      have := iC j (by omega)
      rw [hbseq] at this
      exact this.2
    · intro hpos
      simp only at hpos ⊢
      rw [hbl]
      rw [List.getD_append_right _ _ _ _ (by omega)]
      rw [hml]
      have : h + 1 - 1 - h = 0 := by omega
      rw [show h + 1 - 1 = h from rfl, Nat.sub_self]
      simp only [List.getD]
      rw [hlkD]
      rfl
    · rw [← hbseq]
      exact iF
  | none =>
    have hF : finish appSucc w = flushDataBlock w := by
      simp [finish, flushPendingDataIndex, hp]
    rw [hF]
    have hml := iB hp
    have hlen0 : (flushDataBlock w).blocks.length = 0 := by
      by_contra hpos
      have hpos' : 0 < (flushDataBlock w).indexEntries.length := by omega
      have := (iC ((flushDataBlock w).indexEntries.length - 1) (by omega)).1
      rw [hbseq] at this
      omega
    refine ⟨hcb', hp, hblocks, by omega, ?_, ?_, ?_⟩
    · intro j hj
      omega
    · intro hpos
      omega
    · rw [← hbseq]
      exact iF

end TableWriter

namespace TableWriter

/-- Claim C8: for every sorted key sequence fed to the table writer,
flushing a data block emits no index entry (`flushDataBlock` leaves the
data-index block untouched, holding the handle in `pendingDataIndex`); the
entry is materialized at the next `Add` — with key
`AppendSuccessor(last key of the flushed block, the key just added)`, which
is the first key of the next block — or at `Finish` with `nil` limit for the
final block.  Consequently, in the finished table, there is exactly one
index entry per data block; entry `j` carries
`AppendSuccessor(last key of block j, first key of block j+1)` (`nil` limit
for the last block) and the block's handle; and, when `AppendSuccessor`
satisfies its contract (`a ≤ AppendSuccessor(a, b)`, and
`AppendSuccessor(a, b) < b` whenever `a < b`), each index key is at least
the last key of its block and, when a next block exists, less than that
block's first key. -/
theorem writer_pending_index_entries (appSucc : Nat → Option Nat → Nat)
    (blockFull : List (Nat × Nat) → Bool) (kvs : List (Nat × Nat))
    (hsorted : List.Pairwise (fun a b : Nat × Nat => a.1 < b.1) kvs)
    (happ1 : ∀ a b, a ≤ appSucc a b)
    (happ2 : ∀ a b, a < b → appSucc a (some b) < b) :
    (∀ v : WState, (flushDataBlock v).indexEntries = v.indexEntries) ∧
    (runWriter appSucc blockFull kvs).pending = none ∧
    (runWriter appSucc blockFull kvs).curBlock = [] ∧
    (runWriter appSucc blockFull kvs).indexEntries.length =
      (runWriter appSucc blockFull kvs).blocks.length ∧
    (∀ j, j + 1 < (runWriter appSucc blockFull kvs).blocks.length →
      (runWriter appSucc blockFull kvs).indexEntries.getD j (0, 0) =
        (appSucc
          (lastKeyOf ((runWriter appSucc blockFull kvs).blocks.getD j []))
          (some (firstKeyOf
            ((runWriter appSucc blockFull kvs).blocks.getD (j + 1) []))),
          j) ∧
      lastKeyOf ((runWriter appSucc blockFull kvs).blocks.getD j []) ≤
        ((runWriter appSucc blockFull kvs).indexEntries.getD j (0, 0)).1 ∧
      ((runWriter appSucc blockFull kvs).indexEntries.getD j (0, 0)).1 <
        firstKeyOf
          ((runWriter appSucc blockFull kvs).blocks.getD (j + 1) [])) ∧
    (0 < (runWriter appSucc blockFull kvs).blocks.length →
      (runWriter appSucc blockFull kvs).indexEntries.getD
          ((runWriter appSucc blockFull kvs).blocks.length - 1) (0, 0) =
        (appSucc
          (lastKeyOf ((runWriter appSucc blockFull kvs).blocks.getD
            ((runWriter appSucc blockFull kvs).blocks.length - 1) [])) none,
          (runWriter appSucc blockFull kvs).blocks.length - 1) ∧
      lastKeyOf ((runWriter appSucc blockFull kvs).blocks.getD
          ((runWriter appSucc blockFull kvs).blocks.length - 1) []) ≤
        ((runWriter appSucc blockFull kvs).indexEntries.getD
          ((runWriter appSucc blockFull kvs).blocks.length - 1) (0, 0)).1) := by
  have hInvF := inv_foldl appSucc blockFull kvs empty (inv_empty appSucc)
    (fun l hl => by simp [empty] at hl) hsorted
  obtain ⟨h1, h2, h3, h4, h5, h6, h7⟩ := finish_spec appSucc _ hInvF
  have hrun : runWriter appSucc blockFull kvs = finish appSucc
      (kvs.foldl (fun w kv => add appSucc blockFull w kv.1 kv.2) empty) := rfl
  rw [hrun]
  refine ⟨?_, h2, h1, h4, ?_, ?_⟩
  · intro v
    by_cases hc : v.curBlock = []
    · rw [flushDataBlock_of_empty v hc]
    · rw [flushDataBlock_of_ne v hc]
  · intro j hj
    have he := h5 j hj
    have hchain : lastKeyOf ((finish appSucc
        (kvs.foldl (fun w kv => add appSucc blockFull w kv.1 kv.2)
          empty)).blocks.getD j []) <
        firstKeyOf ((finish appSucc
          (kvs.foldl (fun w kv => add appSucc blockFull w kv.1 kv.2)
            empty)).blocks.getD (j + 1) []) := by
      have hh := List.chain'_iff_get.mp h7 j (by omega)
      rw [List.get_eq_getElem, List.get_eq_getElem] at hh
      rw [List.getD_eq_getElem _ _ (by omega : j < _),
        List.getD_eq_getElem _ _ (by omega : j + 1 < _)]
      exact hh
    refine ⟨he, ?_, ?_⟩
    · rw [he]
      exact happ1 _ _
    · rw [he]
      exact happ2 _ _ hchain
  · intro hpos
    refine ⟨h6 hpos, ?_⟩
    rw [h6 hpos]
    exact happ1 _ _

/-- Witness for `writer_pending_index_entries`: three ascending keys, the
identity-like successor function, and a block size of two entries — the run
produces two blocks and two index entries. -/
theorem writer_pending_index_entries_witness :
    (runWriter (fun a _ => a) (fun b => decide (2 ≤ b.length))
        [(1, 10), (2, 20), (3, 30)]).pending = none ∧
    (runWriter (fun a _ => a) (fun b => decide (2 ≤ b.length))
        [(1, 10), (2, 20), (3, 30)]).indexEntries.length =
      (runWriter (fun a _ => a) (fun b => decide (2 ≤ b.length))
        [(1, 10), (2, 20), (3, 30)]).blocks.length :=
  ⟨(writer_pending_index_entries (fun a _ => a)
      (fun b => decide (2 ≤ b.length)) [(1, 10), (2, 20), (3, 30)]
      (by decide) (fun a b => le_refl a) (fun a b h => h)).2.1,
   (writer_pending_index_entries (fun a _ => a)
      (fun b => decide (2 ≤ b.length)) [(1, 10), (2, 20), (3, 30)]
      (by decide) (fun a b => le_refl a) (fun a b h => h)).2.2.2.1⟩

end TableWriter

namespace RangeIter

/-- Modelled from the spec (§4.8): the iterator wrapped by the clipping
iterators (the DB iterator over the merged stream) presents the visible user
keys in ascending order as a bidirectional cursor.  `keys` is that sorted
key sequence; `pos` is the cursor (`none` when invalid).  `Seek` positions
at the first key not below the target; `Next`/`Prev` move the cursor and
invalidate at the ends; `Next`/`Prev` of an invalid cursor stay invalid. -/
structure Inner where
  keys : List Nat
  pos : Option Nat
deriving DecidableEq, Repr

/-- `Key()` of the wrapped iterator (only read at valid positions). -/
def Inner.key (it : Inner) : Nat :=
  match it.pos with
  | some i => it.keys.getD i 0
  | none => 0

/-- `Seek(k)`: first key `≥ k`, invalid when none. -/
def Inner.seek (it : Inner) (k : Nat) : Inner × Bool :=
  match it.keys.findIdx? (fun x => decide (k ≤ x)) with
  | some i => ({ it with pos := some i }, true)
  | none => ({ it with pos := none }, false)

/-- `First()`. -/
def Inner.first (it : Inner) : Inner × Bool :=
  if it.keys.isEmpty then ({ it with pos := none }, false)
  else ({ it with pos := some 0 }, true)

/-- `Last()`. -/
def Inner.last (it : Inner) : Inner × Bool :=
  if it.keys.isEmpty then ({ it with pos := none }, false)
  else ({ it with pos := some (it.keys.length - 1) }, true)

/-- `Next()`. -/
def Inner.next (it : Inner) : Inner × Bool :=
  match it.pos with
  | some i =>
    if i + 1 < it.keys.length then ({ it with pos := some (i + 1) }, true)
    else ({ it with pos := none }, false)
  | none => (it, false)

/-- `Prev()`. -/
def Inner.prev (it : Inner) : Inner × Bool :=
  match it.pos with
  | some i =>
    if 0 < i then ({ it with pos := some (i - 1) }, true)
    else ({ it with pos := none }, false)
  | none => (it, false)

theorem findIdx?_go_spec (p : Nat → Bool) :
    ∀ (l : List Nat) (s i : Nat), List.findIdx? p l s = some i →
      s ≤ i ∧ i - s < l.length ∧ p (l.getD (i - s) 0) = true := by
  intro l
  induction l with
  | nil => intro s i h; simp [List.findIdx?] at h
  | cons a rest ih =>
    intro s i h
    rw [List.findIdx?_cons] at h
    by_cases hp : p a
    · rw [if_pos hp] at h
      injection h with h
      subst h
      refine ⟨le_refl _, by simp, ?_⟩
      rw [Nat.sub_self]
      simpa using hp
    · rw [if_neg hp] at h
      obtain ⟨h1, h2, h3⟩ := ih (s + 1) i h
      refine ⟨by omega, by simp; omega, ?_⟩
      have hm : i - s = (i - (s + 1)) + 1 := by omega
      rw [hm, List.getD_cons_succ]
      exact h3

theorem findIdx?_spec (p : Nat → Bool) :
    ∀ (l : List Nat) (i : Nat), l.findIdx? p = some i →
      i < l.length ∧ p (l.getD i 0) = true := by
  intro l i h
  obtain ⟨h1, h2, h3⟩ := findIdx?_go_spec p l 0 i h
  rw [Nat.sub_zero] at h2 h3
  exact ⟨h2, h3⟩

theorem seek_spec (it : Inner) (k : Nat) :
    (it.seek k).1.keys = it.keys ∧
    ((it.seek k).2 = true → ∃ i, (it.seek k).1.pos = some i ∧
      i < it.keys.length ∧ k ≤ it.keys.getD i 0) ∧
    ((it.seek k).2 = false → (it.seek k).1.pos = none) := by
  cases hf : it.keys.findIdx? (fun x => decide (k ≤ x)) with
  | none =>
    refine ⟨?_, ?_, ?_⟩ <;> simp [Inner.seek, hf]
  | some i =>
    obtain ⟨h1, h2⟩ := findIdx?_spec _ it.keys i hf
    rw [decide_eq_true_iff] at h2
    refine ⟨by simp [Inner.seek, hf], ?_, ?_⟩
    · intro _
      exact ⟨i, by simp [Inner.seek, hf], h1, h2⟩
    · intro hcon
      simp [Inner.seek, hf] at hcon

theorem sorted_getD_lt (keys : List Nat)
    (hs : List.Pairwise (fun a b : Nat => a < b) keys)
    (i j : Nat) (hij : i < j) (hj : j < keys.length) :
    keys.getD i 0 < keys.getD j 0 := by
  have h := (List.pairwise_iff_getElem.mp hs) i j (by omega) hj hij
  rw [List.getD_eq_getElem keys 0 (by omega : i < keys.length),
    List.getD_eq_getElem keys 0 hj]
  exact h

end RangeIter

namespace RangeIter

/-- The `rangeIterator` state (internal/iterator/range.go:5-12): the
start-of-iteration flag `soi`, the validity flag, and the wrapped iterator.
`start` and `limit` are carried as parameters of the operations. -/
structure RState where
  soi : Bool
  valid : Bool
  inner : Inner
deriving DecidableEq, Repr

/-- `rangeIterator.checkStart` (range.go:14-21), applied to the wrapped
iterator after it moved: accept when the move succeeded and the key is at
least `start`. -/
def rCheckStart (start : Nat) (st : RState) (i' : Inner) (v : Bool) :
    RState × Bool :=
  if v = true ∧ start ≤ i'.key then
    ({ st with inner := i', valid := true }, true)
  else ({ st with inner := i', valid := false }, false)

/-- `rangeIterator.checkLimit` (range.go:23-30). -/
def rCheckLimit (limit : Nat) (st : RState) (i' : Inner) (v : Bool) :
    RState × Bool :=
  if v = true ∧ i'.key < limit then
    ({ st with inner := i', valid := true }, true)
  else ({ st with inner := i', valid := false }, false)

/-- `rangeIterator.First` (range.go:32-35). -/
def rFirst (start limit : Nat) (st : RState) : RState × Bool :=
  let st := { st with soi := true }
  let r := st.inner.seek start
  rCheckLimit limit st r.1 r.2

/-- The loop of `rangeIterator.Last`'s first case (range.go:41-45): step
`Prev` while it succeeds; accept through `checkStart` at the first key below
`limit`; report invalid when `Prev` fails.  The cursor moves strictly left
each step, so `keys.length + 1` fuel is never exhausted. -/
def rLastLoop1 (start limit : Nat) (st : RState) (i : Inner) :
    Nat → RState × Bool
  | 0 => ({ st with inner := i, valid := false }, false)
  | fuel + 1 =>
    let r := i.prev
    if r.2 then
      if r.1.key < limit then rCheckStart start st r.1 true
      else rLastLoop1 start limit st r.1 fuel
    else ({ st with inner := r.1, valid := false }, false)

/-- The loop of `rangeIterator.Last`'s second case (range.go:52-58): step
`Prev` while the key is at least `limit`, reporting invalid when `Prev`
fails, then accept through `checkStart`. -/
def rLastLoop2 (start limit : Nat) (st : RState) (i : Inner) :
    Nat → RState × Bool
  | 0 => ({ st with inner := i, valid := false }, false)
  | fuel + 1 =>
    if limit ≤ i.key then
      let r := i.prev
      if r.2 then rLastLoop2 start limit st r.1 fuel
      else ({ st with inner := r.1, valid := false }, false)
    else rCheckStart start st i true

/-- `rangeIterator.Last` (range.go:37-62). -/
def rLast (start limit : Nat) (st : RState) : RState × Bool :=
  let st := { st with soi := true }
  let r1 := st.inner.seek limit
  if r1.2 then rLastLoop1 start limit st r1.1 (r1.1.keys.length + 1)
  else
    let r2 := r1.1.last
    if r2.2 then rLastLoop2 start limit st r2.1 (r2.1.keys.length + 1)
    else ({ st with inner := r2.1, valid := false }, false)

/-- `rangeIterator.Next` (range.go:64-72). -/
def rNext (start limit : Nat) (st : RState) : RState × Bool :=
  if st.soi = false then rFirst start limit st
  else if st.valid = true then
    let r := st.inner.next
    rCheckLimit limit st r.1 r.2
  else (st, false)

/-- `rangeIterator.Prev` (range.go:74-82). -/
def rPrev (start limit : Nat) (st : RState) : RState × Bool :=
  if st.soi = false then rLast start limit st
  else if st.valid = true then
    let r := st.inner.prev
    rCheckStart start st r.1 r.2
  else (st, false)

/-- `rangeIterator.Seek` (range.go:84-94). -/
def rSeek (start limit : Nat) (st : RState) (target : Nat) : RState × Bool :=
  let st := { st with soi := true }
  if target < start then
    let r := st.inner.seek start
    rCheckLimit limit st r.1 r.2
  else if limit ≤ target then ({ st with valid := false }, false)
  else
    let r := st.inner.seek target
    rCheckLimit limit st r.1 r.2

/-- `rangeIterator.Key` (range.go:100-105) reads the wrapped key when
valid. -/
def RState.keyR (st : RState) : Nat := st.inner.key

/-- A positioning call on a clipping iterator. -/
inductive Op where
  | first
  | last
  | next
  | prev
  | seek (k : Nat)
deriving DecidableEq, Repr

/-- Dispatch one call on the range iterator. -/
def rStep (start limit : Nat) (st : RState) : Op → RState × Bool
  | .first => rFirst start limit st
  | .last => rLast start limit st
  | .next => rNext start limit st
  | .prev => rPrev start limit st
  | .seek k => rSeek start limit st k

/-- Run a call sequence on the range iterator. -/
def rRun (start limit : Nat) (st : RState) : List Op → RState
  | [] => st
  | op :: ops => rRun start limit (rStep start limit st op).1 ops

/-- The iterator as returned by `NewRangeIterator` over a fresh wrapped
iterator. -/
def rInit (keys : List Nat) : RState := ⟨false, false, ⟨keys, none⟩⟩

/-- The safety invariant: the wrapped key list never changes, the cursor
stays in range, and whenever the iterator reports valid it sits on a key in
`[start, limit)`. -/
def RInv (start limit : Nat) (keys : List Nat) (st : RState) : Prop :=
  st.inner.keys = keys ∧
  (∀ i, st.inner.pos = some i → i < keys.length) ∧
  (st.valid = true → ∃ i, st.inner.pos = some i ∧ i < keys.length ∧
    start ≤ keys.getD i 0 ∧ keys.getD i 0 < limit)

end RangeIter

namespace RangeIter

theorem next_spec (it : Inner) :
    (it.next).1.keys = it.keys ∧
    ((it.next).2 = true → ∃ i, it.pos = some i ∧
      (it.next).1.pos = some (i + 1) ∧ i + 1 < it.keys.length) ∧
    ((it.next).2 = false → (it.next).1.pos = none) := by
  cases hp : it.pos with
  | none => refine ⟨?_, ?_, ?_⟩ <;> simp [Inner.next, hp]
  | some i =>
    by_cases hlt : i + 1 < it.keys.length
    · refine ⟨?_, ?_, ?_⟩ <;> simp [Inner.next, hp, hlt]
    · refine ⟨?_, ?_, ?_⟩ <;> simp [Inner.next, hp, hlt]

theorem prev_spec (it : Inner) :
    (it.prev).1.keys = it.keys ∧
    ((it.prev).2 = true → ∃ i, it.pos = some i ∧ 0 < i ∧
      (it.prev).1.pos = some (i - 1)) ∧
    ((it.prev).2 = false → (it.prev).1.pos = none) := by
  cases hp : it.pos with
  | none => refine ⟨?_, ?_, ?_⟩ <;> simp [Inner.prev, hp]
  | some i =>
    by_cases hlt : 0 < i
    · refine ⟨?_, ?_, ?_⟩ <;> simp [Inner.prev, hp, hlt]
    · refine ⟨?_, ?_, ?_⟩ <;> simp [Inner.prev, hp, hlt]

theorem last_spec (it : Inner) :
    (it.last).1.keys = it.keys ∧
    ((it.last).2 = true → (it.last).1.pos = some (it.keys.length - 1) ∧
      0 < it.keys.length) ∧
    ((it.last).2 = false → (it.last).1.pos = none) := by
  by_cases he : it.keys.isEmpty
  · have : it.keys = [] := by
      cases hk : it.keys with
      | nil => rfl
      | cons a l => rw [hk] at he; simp at he
    refine ⟨?_, ?_, ?_⟩ <;> simp [Inner.last, he, this]
  · have : 0 < it.keys.length := by
      cases hk : it.keys with
      | nil => rw [hk] at he; simp at he
      | cons a l => simp [hk]
    refine ⟨?_, ?_, ?_⟩ <;> simp [Inner.last, he, this]

theorem rinv_checkLimit (start limit : Nat) (keys : List Nat) (st : RState)
    (i' : Inner) (v : Bool)
    (hkeys : i'.keys = keys)
    (hwf : ∀ i, i'.pos = some i → i < keys.length)
    (hv : v = true → ∃ i, i'.pos = some i ∧ start ≤ keys.getD i 0) :
    RInv start limit keys (rCheckLimit limit st i' v).1 := by
  unfold rCheckLimit
  by_cases hc : v = true ∧ i'.key < limit
  · rw [if_pos hc]
    obtain ⟨i, hpos, hstart⟩ := hv hc.1
    refine ⟨hkeys, hwf, fun _ => ⟨i, hpos, hwf i hpos, hstart, ?_⟩⟩
    have hkey : i'.key = keys.getD i 0 := by
      simp [Inner.key, hpos, hkeys]
    rw [← hkey]
    exact hc.2
  · rw [if_neg hc]
    exact ⟨hkeys, hwf, fun h => absurd h (by simp)⟩

theorem rinv_checkStart (start limit : Nat) (keys : List Nat) (st : RState)
    (i' : Inner) (v : Bool)
    (hkeys : i'.keys = keys)
    (hwf : ∀ i, i'.pos = some i → i < keys.length)
    (hv : v = true → ∃ i, i'.pos = some i ∧ keys.getD i 0 < limit) :
    RInv start limit keys (rCheckStart start st i' v).1 := by
  unfold rCheckStart
  by_cases hc : v = true ∧ start ≤ i'.key
  · rw [if_pos hc]
    obtain ⟨i, hpos, hlim⟩ := hv hc.1
    refine ⟨hkeys, hwf, fun _ => ⟨i, hpos, hwf i hpos, ?_, hlim⟩⟩
    have hkey : i'.key = keys.getD i 0 := by
      simp [Inner.key, hpos, hkeys]
    rw [← hkey]
    exact hc.2
  · rw [if_neg hc]
    exact ⟨hkeys, hwf, fun h => absurd h (by simp)⟩

theorem seek_wf (it : Inner) (k : Nat) (keys : List Nat)
    (hkeys : it.keys = keys) :
    (it.seek k).1.keys = keys ∧
    (∀ i, (it.seek k).1.pos = some i → i < keys.length) ∧
    ((it.seek k).2 = true → ∃ i, (it.seek k).1.pos = some i ∧
      k ≤ keys.getD i 0) := by
  obtain ⟨h1, h2, h3⟩ := seek_spec it k
  rw [hkeys] at h1 h2
  refine ⟨h1, ?_, ?_⟩
  · intro i hi
    cases hv : (it.seek k).2 with
    | true =>
      obtain ⟨j, hj1, hj2, _⟩ := h2 hv
      rw [hi] at hj1
      injection hj1 with hj1
      omega
    | false =>
      rw [h3 hv] at hi
      exact absurd hi (by simp)
  · intro hv
    obtain ⟨j, hj1, hj2, hj3⟩ := h2 hv
    exact ⟨j, hj1, hj3⟩

end RangeIter

namespace RangeIter

theorem rinv_first (start limit : Nat) (keys : List Nat) (st : RState)
    (hkeys : st.inner.keys = keys) :
    RInv start limit keys (rFirst start limit st).1 := by
  obtain ⟨h1, h2, h3⟩ := seek_wf st.inner start keys hkeys
  exact rinv_checkLimit start limit keys _ _ _ h1 h2
    (fun hv => (h3 hv).imp (fun i hi => ⟨hi.1, hi.2⟩))

theorem rinv_seek (start limit : Nat) (keys : List Nat) (st : RState)
    (target : Nat) (hInv : RInv start limit keys st) :
    RInv start limit keys (rSeek start limit st target).1 := by
  obtain ⟨hkeys, hwf, _⟩ := hInv
  unfold rSeek
  by_cases h1 : target < start
  · rw [if_pos h1]
    obtain ⟨g1, g2, g3⟩ := seek_wf st.inner start keys hkeys
    exact rinv_checkLimit start limit keys _ _ _ g1 g2
      (fun hv => (g3 hv).imp (fun i hi => ⟨hi.1, hi.2⟩))
  · rw [if_neg h1]
    by_cases h2 : limit ≤ target
    · rw [if_pos h2]
      exact ⟨hkeys, hwf, fun h => absurd h (by simp)⟩
    · rw [if_neg h2]
      obtain ⟨g1, g2, g3⟩ := seek_wf st.inner target keys hkeys
      refine rinv_checkLimit start limit keys _ _ _ g1 g2 ?_
      intro hv
      obtain ⟨i, hi1, hi2⟩ := g3 hv
      exact ⟨i, hi1, by omega⟩

theorem rinv_lastLoop1 (start limit : Nat) (keys : List Nat) (st : RState) :
    ∀ (fuel : Nat) (i : Inner), i.keys = keys →
      (∀ j, i.pos = some j → j < keys.length) →
      RInv start limit keys (rLastLoop1 start limit st i fuel).1 := by
  intro fuel
  induction fuel with
  | zero =>
    intro i hk hw
    simp only [rLastLoop1]
    exact ⟨hk, hw, fun h => absurd h (by simp)⟩
  | succ fuel ih =>
    intro i hk hw
    obtain ⟨p1, p2, p3⟩ := prev_spec i
    simp only [rLastLoop1]
    cases hv : (i.prev).2 with
    | false =>
      simp only [Bool.false_eq_true, if_false]
      exact ⟨by rw [p1, hk], fun j hj => by rw [p3 hv] at hj; exact absurd hj (by simp),
        fun h => absurd h (by simp)⟩
    | true =>
      simp only [if_true]
      obtain ⟨j, hj1, hj2, hj3⟩ := p2 hv
      have hwf' : ∀ m, (i.prev).1.pos = some m → m < keys.length := by
        intro m hm
        rw [hj3] at hm
        injection hm with hm
        have := hw j hj1
        omega
      by_cases hlim : (i.prev).1.key < limit
      · rw [if_pos hlim]
        refine rinv_checkStart start limit keys st _ _ (by rw [p1, hk]) hwf' ?_
        intro _
        refine ⟨j - 1, hj3, ?_⟩
        have hkey : (i.prev).1.key = keys.getD (j - 1) 0 := by
          simp [Inner.key, hj3, p1, hk]
        rw [← hkey]
        exact hlim
      · rw [if_neg hlim]
        exact ih _ (by rw [p1, hk]) hwf'

theorem rinv_lastLoop2 (start limit : Nat) (keys : List Nat) (st : RState) :
    ∀ (fuel : Nat) (i : Inner), i.keys = keys →
      (∀ j, i.pos = some j → j < keys.length) →
      (∃ j, i.pos = some j) →
      RInv start limit keys (rLastLoop2 start limit st i fuel).1 := by
  intro fuel
  induction fuel with
  | zero =>
    intro i hk hw _
    simp only [rLastLoop2]
    exact ⟨hk, hw, fun h => absurd h (by simp)⟩
  | succ fuel ih =>
    intro i hk hw hex
    obtain ⟨p1, p2, p3⟩ := prev_spec i
    simp only [rLastLoop2]
    by_cases hge : limit ≤ i.key
    · rw [if_pos hge]
      cases hv : (i.prev).2 with
      | false =>
        simp only [Bool.false_eq_true, if_false]
        exact ⟨by rw [p1, hk],
          fun j hj => by rw [p3 hv] at hj; exact absurd hj (by simp),
          fun h => absurd h (by simp)⟩
      | true =>
        simp only [if_true]
        obtain ⟨j, hj1, hj2, hj3⟩ := p2 hv
        have hwf' : ∀ m, (i.prev).1.pos = some m → m < keys.length := by
          intro m hm
          rw [hj3] at hm
          injection hm with hm
          have := hw j hj1
          omega
        exact ih _ (by rw [p1, hk]) hwf' ⟨j - 1, hj3⟩
    · rw [if_neg hge]
      refine rinv_checkStart start limit keys st _ _ hk hw ?_
      intro _
      obtain ⟨j, hj⟩ := hex
      refine ⟨j, hj, ?_⟩
      have hkey : i.key = keys.getD j 0 := by
        simp [Inner.key, hj, hk]
      rw [← hkey]
      omega

theorem rinv_last (start limit : Nat) (keys : List Nat) (st : RState)
    (hkeys : st.inner.keys = keys) :
    RInv start limit keys (rLast start limit st).1 := by
  obtain ⟨g1, g2, g3⟩ := seek_wf st.inner limit keys hkeys
  simp only [rLast]
  cases hv1 : (st.inner.seek limit).2 with
  | true =>
    rw [if_pos rfl]
    exact rinv_lastLoop1 start limit keys _ _ _ g1 g2
  | false =>
    rw [if_neg (by simp)]
    obtain ⟨l1, l2, l3⟩ := last_spec (st.inner.seek limit).1
    cases hv2 : ((st.inner.seek limit).1.last).2 with
    | true =>
      rw [if_pos rfl]
      obtain ⟨hl1, hl2⟩ := l2 hv2
      rw [g1] at hl1 hl2
      refine rinv_lastLoop2 start limit keys _ _ _ (by rw [l1, g1]) ?_
        ⟨keys.length - 1, hl1⟩
      intro m hm
      rw [hl1] at hm
      injection hm with hm
      omega
    | false =>
      rw [if_neg (by simp)]
      refine ⟨by rw [l1, g1], ?_, fun h => absurd h (by simp)⟩
      intro m hm
      rw [l3 hv2] at hm
      exact absurd hm (by simp)

theorem rinv_next (start limit : Nat) (keys : List Nat) (st : RState)
    (hs : List.Pairwise (fun a b : Nat => a < b) keys)
    (hInv : RInv start limit keys st) :
    RInv start limit keys (rNext start limit st).1 := by
  obtain ⟨hkeys, hwf, hval⟩ := hInv
  unfold rNext
  by_cases h1 : st.soi = false
  · rw [if_pos h1]
    exact rinv_first start limit keys st hkeys
  · rw [if_neg h1]
    by_cases h2 : st.valid = true
    · rw [if_pos h2]
      obtain ⟨n1, n2, n3⟩ := next_spec st.inner
      obtain ⟨i, hi1, hi2, hi3, hi4⟩ := hval h2
      have hwf' : ∀ m, (st.inner.next).1.pos = some m → m < keys.length := by
        intro m hm
        cases hv : (st.inner.next).2 with
        | true =>
          obtain ⟨j, hj1, hj2, hj3⟩ := n2 hv
          rw [hj2] at hm
          injection hm with hm
          rw [hkeys] at hj3
          omega
        | false =>
          rw [n3 hv] at hm
          exact absurd hm (by simp)
      refine rinv_checkLimit start limit keys st _ _ (by rw [n1, hkeys]) hwf' ?_
      intro hv
      obtain ⟨j, hj1, hj2, hj3⟩ := n2 hv
      rw [hi1] at hj1
      injection hj1 with hj1
      subst hj1
      refine ⟨i + 1, hj2, ?_⟩
      rw [hkeys] at hj3
      have := sorted_getD_lt keys hs i (i + 1) (by omega) hj3
      omega
    · rw [if_neg h2]
      exact ⟨hkeys, hwf, hval⟩

theorem rinv_prev (start limit : Nat) (keys : List Nat) (st : RState)
    (hs : List.Pairwise (fun a b : Nat => a < b) keys)
    (hInv : RInv start limit keys st) :
    RInv start limit keys (rPrev start limit st).1 := by
  obtain ⟨hkeys, hwf, hval⟩ := hInv
  unfold rPrev
  by_cases h1 : st.soi = false
  · rw [if_pos h1]
    exact rinv_last start limit keys st hkeys
  · rw [if_neg h1]
    by_cases h2 : st.valid = true
    · rw [if_pos h2]
      obtain ⟨p1, p2, p3⟩ := prev_spec st.inner
      obtain ⟨i, hi1, hi2, hi3, hi4⟩ := hval h2
      have hwf' : ∀ m, (st.inner.prev).1.pos = some m → m < keys.length := by
        intro m hm
        cases hv : (st.inner.prev).2 with
        | true =>
          obtain ⟨j, hj1, hj2, hj3⟩ := p2 hv
          rw [hj3] at hm
          injection hm with hm
          have := hwf j hj1
          omega
        | false =>
          rw [p3 hv] at hm
          exact absurd hm (by simp)
      refine rinv_checkStart start limit keys st _ _ (by rw [p1, hkeys]) hwf' ?_
      intro hv
      obtain ⟨j, hj1, hj2, hj3⟩ := p2 hv
      rw [hi1] at hj1
      injection hj1 with hj1
      subst hj1
      refine ⟨i - 1, hj3, ?_⟩
      have := sorted_getD_lt keys hs (i - 1) i (by omega) hi2
      omega
    · rw [if_neg h2]
      exact ⟨hkeys, hwf, hval⟩

theorem rinv_step (start limit : Nat) (keys : List Nat) (st : RState)
    (op : Op) (hs : List.Pairwise (fun a b : Nat => a < b) keys)
    (hInv : RInv start limit keys st) :
    RInv start limit keys (rStep start limit st op).1 := by
  cases op with
  | first => exact rinv_first start limit keys st hInv.1
  | last => exact rinv_last start limit keys st hInv.1
  | next => exact rinv_next start limit keys st hs hInv
  | prev => exact rinv_prev start limit keys st hs hInv
  | seek k => exact rinv_seek start limit keys st k hInv

theorem rinv_run (start limit : Nat) (keys : List Nat)
    (hs : List.Pairwise (fun a b : Nat => a < b) keys) :
    ∀ (ops : List Op) (st : RState), RInv start limit keys st →
      RInv start limit keys (rRun start limit st ops) := by
  intro ops
  induction ops with
  | nil => intro st h; exact h
  | cons op rest ih =>
    intro st h
    exact ih _ (rinv_step start limit keys st op hs h)

end RangeIter

namespace RangeIter

/-- The `startIterator` state (internal/iterator/start.go:5-11), produced by
`NewRangeIterator` when only `start` is given — the `DB.Find(start)`
iterator. -/
structure SState where
  seeked : Bool
  valid : Bool
  inner : Inner
deriving DecidableEq, Repr

/-- `startIterator.checkStart` (start.go:19-26). -/
def sCheckStart (start : Nat) (st : SState) (i' : Inner) (v : Bool) :
    SState × Bool :=
  if v = true ∧ start ≤ i'.key then
    ({ st with inner := i', valid := true }, true)
  else ({ st with inner := i', valid := false }, false)

/-- `startIterator.First` (start.go:13-17): seek to `start`, no bound
check needed. -/
def sFirst (start : Nat) (st : SState) : SState × Bool :=
  let st := { st with seeked := true }
  let r := st.inner.seek start
  ({ st with inner := r.1, valid := r.2 }, r.2)

/-- `startIterator.Last` (start.go:28-31). -/
def sLast (start : Nat) (st : SState) : SState × Bool :=
  let st := { st with seeked := true }
  let r := st.inner.last
  sCheckStart start st r.1 r.2

/-- `startIterator.Next` (start.go:33-39): when already seeked, step the
wrapped iterator and adopt its validity — without re-checking the start
bound. -/
def sNext (start : Nat) (st : SState) : SState × Bool :=
  if st.seeked = true then
    let r := st.inner.next
    ({ st with inner := r.1, valid := r.2 }, r.2)
  else sFirst start st

/-- `startIterator.Prev` (start.go:41-44): steps the wrapped iterator
backwards from any state, then checks the start bound. -/
def sPrev (start : Nat) (st : SState) : SState × Bool :=
  let st := { st with seeked := true }
  let r := st.inner.prev
  sCheckStart start st r.1 r.2

/-- `startIterator.Seek` (start.go:46-53): clamp the target to `start`. -/
def sSeek (start : Nat) (st : SState) (target : Nat) : SState × Bool :=
  let t := if target < start then start else target
  let st := { st with seeked := true }
  let r := st.inner.seek t
  ({ st with inner := r.1, valid := r.2 }, r.2)

/-- Dispatch one call on the start iterator. -/
def sStep (start : Nat) (st : SState) : Op → SState × Bool
  | .first => sFirst start st
  | .last => sLast start st
  | .next => sNext start st
  | .prev => sPrev start st
  | .seek k => sSeek start st k

/-- Run a call sequence on the start iterator. -/
def sRun (start : Nat) (st : SState) : List Op → SState
  | [] => st
  | op :: ops => sRun start (sStep start st op).1 ops

/-- The iterator as returned by `newStartIterator` over a fresh wrapped
iterator. -/
def sInit (keys : List Nat) : SState := ⟨false, false, ⟨keys, none⟩⟩

/-- `startIterator.Key` (start.go:59-64) reads the wrapped key when
valid. -/
def SState.keyS (st : SState) : Nat := st.inner.key

/-- The invariant maintained by `Prev`-free call sequences: when valid, the
cursor sits on a key at least `start`; when invalid, the cursor is either
exhausted or parked at the last key (from a failed `Last`). -/
def SInv (start : Nat) (keys : List Nat) (st : SState) : Prop :=
  st.inner.keys = keys ∧
  (∀ i, st.inner.pos = some i → i < keys.length) ∧
  (st.valid = true → ∃ i, st.inner.pos = some i ∧ i < keys.length ∧
    start ≤ keys.getD i 0) ∧
  (st.valid = false → st.inner.pos = none ∨
    st.inner.pos = some (keys.length - 1))

end RangeIter

namespace RangeIter

theorem sinv_first (start : Nat) (keys : List Nat) (st : SState)
    (hkeys : st.inner.keys = keys) :
    SInv start keys (sFirst start st).1 := by
  obtain ⟨g1, g2, g3⟩ := seek_wf st.inner start keys hkeys
  obtain ⟨q1, q2, q3⟩ := seek_spec st.inner start
  refine ⟨g1, g2, ?_, ?_⟩
  · intro hv
    obtain ⟨i, hi1, hi2⟩ := g3 hv
    exact ⟨i, hi1, g2 i hi1, hi2⟩
  · intro hv
    exact Or.inl (q3 hv)

theorem sinv_seek (start : Nat) (keys : List Nat) (st : SState)
    (target : Nat) (hkeys : st.inner.keys = keys) :
    SInv start keys (sSeek start st target).1 := by
  obtain ⟨g1, g2, g3⟩ :=
    seek_wf st.inner (if target < start then start else target) keys hkeys
  obtain ⟨q1, q2, q3⟩ :=
    seek_spec st.inner (if target < start then start else target)
  refine ⟨g1, g2, ?_, ?_⟩
  · intro hv
    obtain ⟨i, hi1, hi2⟩ := g3 hv
    refine ⟨i, hi1, g2 i hi1, ?_⟩
    by_cases ht : target < start
    · rw [if_pos ht] at hi2
      exact hi2
    · rw [if_neg ht] at hi2
      omega
  · intro hv
    exact Or.inl (q3 hv)

theorem sinv_last (start : Nat) (keys : List Nat) (st : SState)
    (hkeys : st.inner.keys = keys) :
    SInv start keys (sLast start st).1 := by
  obtain ⟨l1, l2, l3⟩ := last_spec st.inner
  simp only [sLast]
  unfold sCheckStart
  by_cases hc : (st.inner.last).2 = true ∧ start ≤ (st.inner.last).1.key
  · rw [if_pos hc]
    obtain ⟨hp, hlen⟩ := l2 hc.1
    rw [hkeys] at hp hlen
    refine ⟨by rw [l1, hkeys], ?_, ?_, ?_⟩
    · intro i hi
      rw [hp] at hi
      injection hi with hi
      omega
    · intro _
      refine ⟨keys.length - 1, hp, by omega, ?_⟩
      have hkey : (st.inner.last).1.key = keys.getD (keys.length - 1) 0 := by
        simp [Inner.key, hp, l1, hkeys]
      rw [← hkey]
      exact hc.2
    · intro h
      exact absurd h (by simp)
  · rw [if_neg hc]
    refine ⟨by rw [l1, hkeys], ?_, ?_, ?_⟩
    · intro i hi
      cases hv : (st.inner.last).2 with
      | true =>
        obtain ⟨hp, hlen⟩ := l2 hv
        rw [hkeys] at hp hlen
        rw [hp] at hi
        injection hi with hi
        omega
      | false =>
        rw [l3 hv] at hi
        exact absurd hi (by simp)
    · intro h
      exact absurd h (by simp)
    · intro _
      cases hv : (st.inner.last).2 with
      | true =>
        obtain ⟨hp, _⟩ := l2 hv
        rw [hkeys] at hp
        exact Or.inr hp
      | false =>
        exact Or.inl (l3 hv)

theorem sinv_next (start : Nat) (keys : List Nat) (st : SState)
    (hs : List.Pairwise (fun a b : Nat => a < b) keys)
    (hInv : SInv start keys st) :
    SInv start keys (sNext start st).1 := by
  obtain ⟨hkeys, hwf, hvt, hvf⟩ := hInv
  unfold sNext
  by_cases h1 : st.seeked = true
  · rw [if_pos h1]
    obtain ⟨n1, n2, n3⟩ := next_spec st.inner
    refine ⟨by rw [n1, hkeys], ?_, ?_, ?_⟩
    · intro m hm
      cases hv : (st.inner.next).2 with
      | true =>
        obtain ⟨j, hj1, hj2, hj3⟩ := n2 hv
        rw [hj2] at hm
        injection hm with hm
        rw [hkeys] at hj3
        omega
      | false =>
        rw [n3 hv] at hm
        exact absurd hm (by simp)
    · intro hv
      obtain ⟨j, hj1, hj2, hj3⟩ := n2 hv
      rw [hkeys] at hj3
      cases hsv : st.valid with
      | false =>
        rcases hvf hsv with hnone | hlast
        · rw [hnone] at hj1
          exact absurd hj1 (by simp)
        · rw [hlast] at hj1
          injection hj1 with hj1
          omega
      | true =>
        obtain ⟨i, hi1, hi2, hi3⟩ := hvt hsv
        rw [hi1] at hj1
        injection hj1 with hj1
        subst hj1
        refine ⟨i + 1, hj2, hj3, ?_⟩
        have := sorted_getD_lt keys hs i (i + 1) (by omega) hj3
        omega
    · intro hv
      exact Or.inl (n3 hv)
  · rw [if_neg h1]
    exact sinv_first start keys st hkeys

theorem sinv_step_noprev (start : Nat) (keys : List Nat) (st : SState)
    (op : Op) (hop : op ≠ Op.prev)
    (hs : List.Pairwise (fun a b : Nat => a < b) keys)
    (hInv : SInv start keys st) :
    SInv start keys (sStep start st op).1 := by
  cases op with
  | first => exact sinv_first start keys st hInv.1
  | last => exact sinv_last start keys st hInv.1
  | next => exact sinv_next start keys st hs hInv
  | prev => exact absurd rfl hop
  | seek k => exact sinv_seek start keys st k hInv.1

theorem sinv_run_noprev (start : Nat) (keys : List Nat)
    (hs : List.Pairwise (fun a b : Nat => a < b) keys) :
    ∀ (ops : List Op), Op.prev ∉ ops → ∀ (st : SState),
      SInv start keys st → SInv start keys (sRun start st ops) := by
  intro ops
  induction ops with
  | nil => intro _ st h; exact h
  | cons op rest ih =>
    intro hno st h
    refine ih (fun hmem => hno (List.mem_cons_of_mem _ hmem)) _
      (sinv_step_noprev start keys st op ?_ hs h)
    intro hop
    subst hop
    exact hno (List.mem_cons_self _ _)

end RangeIter

namespace RangeIter

/-- Claim C3 (counterexample): the claim says no call sequence can make a
`DB.Find(start)` iterator yield a key below `start`.  On the code it can:
`startIterator.Prev` (start.go:41-44) moves the wrapped iterator backwards
from any state, and `startIterator.Next` (start.go:33-39) adopts the wrapped
iterator's validity without re-checking the start bound.  With visible keys
10, 20, 30, 40 and `start = 25`, the sequence `Seek(30); Prev(); Prev();
Next()` leaves the iterator valid on key 20, which `Key()` returns even
though 20 < 25. -/
theorem find_iterator_escapes_start_bound :
    (sRun 25 (sInit [10, 20, 30, 40])
        [Op.seek 30, Op.prev, Op.prev, Op.next]).valid = true ∧
    (sRun 25 (sInit [10, 20, 30, 40])
        [Op.seek 30, Op.prev, Op.prev, Op.next]).keyS = 20 ∧
    20 < 25 := by
  decide

/-- Claim C3 (amended): over a sorted key sequence, the `rangeIterator`
returned by `DB.Range(start, limit)` (both bounds given) never escapes its
bounds: after any finite sequence of `First/Last/Next/Prev/Seek` calls,
whenever it reports valid its key lies in `[start, limit)`.  The
`startIterator` returned by `DB.Find(start)` keeps its key at least `start`
after any `Prev`-free call sequence, and each `Last`, `Prev` (and `First`,
`Seek`) call individually reports valid only on a key at least `start`; but
a `Prev` that has moved the wrapped iterator below `start` followed by
`Next` can yield a key below `start`
(see `find_iterator_escapes_start_bound`). -/
theorem clipping_iterator_bounds (start limit : Nat) (keys : List Nat)
    (hs : List.Pairwise (fun a b : Nat => a < b) keys)
    (ops sops : List Op) (hnoprev : Op.prev ∉ sops) (st : SState)
    (hkeys : st.inner.keys = keys) :
    ((rRun start limit (rInit keys) ops).valid = true →
      start ≤ (rRun start limit (rInit keys) ops).keyR ∧
      (rRun start limit (rInit keys) ops).keyR < limit) ∧
    ((sRun start (sInit keys) sops).valid = true →
      start ≤ (sRun start (sInit keys) sops).keyS) ∧
    ((sLast start st).2 = true → start ≤ (sLast start st).1.keyS) ∧
    ((sPrev start st).2 = true → start ≤ (sPrev start st).1.keyS) := by
  refine ⟨?_, ?_, ?_, ?_⟩
  · have hInv0 : RInv start limit keys (rInit keys) := by
      refine ⟨rfl, ?_, ?_⟩
      · intro i hi
        simp [rInit] at hi
      · intro h
        simp [rInit] at h
    have hInvF := rinv_run start limit keys hs ops (rInit keys) hInv0
    intro hv
    obtain ⟨i, hp, hlen, h1, h2⟩ := hInvF.2.2 hv
    have hkey : (rRun start limit (rInit keys) ops).keyR = keys.getD i 0 := by
      simp [RState.keyR, Inner.key, hp, hInvF.1]
    rw [hkey]
    exact ⟨h1, h2⟩
  · have hInv0 : SInv start keys (sInit keys) := by
      refine ⟨rfl, ?_, ?_, ?_⟩
      · intro i hi
        simp [sInit] at hi
      · intro h
        simp [sInit] at h
      · intro _
        exact Or.inl rfl
    have hInvF := sinv_run_noprev start keys hs sops hnoprev (sInit keys) hInv0
    intro hv
    obtain ⟨i, hp, hlen, h1⟩ := hInvF.2.2.1 hv
    have hkey : (sRun start (sInit keys) sops).keyS = keys.getD i 0 := by
      simp [SState.keyS, Inner.key, hp, hInvF.1]
    rw [hkey]
    exact h1
  · simp only [sLast]
    unfold sCheckStart
    by_cases hc : (st.inner.last).2 = true ∧ start ≤ (st.inner.last).1.key
    · rw [if_pos hc]
      intro _
      exact hc.2
    · rw [if_neg hc]
      intro h
      exact absurd h (by simp)
  · simp only [sPrev]
    unfold sCheckStart
    by_cases hc : (st.inner.prev).2 = true ∧ start ≤ (st.inner.prev).1.key
    · rw [if_pos hc]
      intro _
      exact hc.2
    · rw [if_neg hc]
      intro h
      exact absurd h (by simp)

/-- Witness for `clipping_iterator_bounds`: keys 0, 2, 4, 6 with range
bounds `[1, 5)` — `First` lands on 2; the start iterator's `First; Next`
lands on 4. -/
theorem clipping_iterator_bounds_witness :
    (1 ≤ (rRun 1 5 (rInit [0, 2, 4, 6]) [Op.first]).keyR ∧
      (rRun 1 5 (rInit [0, 2, 4, 6]) [Op.first]).keyR < 5) ∧
    1 ≤ (sRun 1 (sInit [0, 2, 4, 6]) [Op.first, Op.next]).keyS := by
  have h := clipping_iterator_bounds 1 5 [0, 2, 4, 6] (by decide)
    [Op.first] [Op.first, Op.next] (by decide) (sInit [0, 2, 4, 6]) rfl
  exact ⟨h.1 (by decide), h.2.1 (by decide)⟩

end RangeIter
